import Mathlib

set_option maxHeartbeats 1000000

/-!
Verification development for the flowologist workflow engine.

JavaScript records (`Record<string, T>`) are modelled as association lists
`List (String × T)`; JS objects preserve string-key insertion order, and all
iteration in the source follows that order, so an association list is a
faithful rendering.  JS exceptions are modelled with `Except String`; a JS
value that may be a `Promise` is modelled by `StepOutcome`.  Recursive JS
functions whose recursion is bounded by the set of graph nodes are given a
fuel parameter large enough to never run out on the executions the source
can perform.
-/

/-- Adjacency list of a dependency graph (`Record<string, Array<string>>`). -/
abbrev Graph := List (String × List String)

/-- JS object property read: first binding of the key, `none` = `undefined`. -/
def getKey {β : Type} : List (String × β) → String → Option β
  | [], _ => none
  | (k', v) :: rest, k => if k' = k then some v else getKey rest k

/-- JS object property write `m[k] = v`: overwrite in place, else append
(JS keeps the original insertion position of an existing key). -/
def setKey {β : Type} : List (String × β) → String → β → List (String × β)
  | [], k, v => [(k, v)]
  | (k', v') :: rest, k, v =>
    if k' = k then (k, v) :: rest else (k', v') :: setKey rest k v

/-- `dependencies[node] || []` from the source. -/
def depsOf (g : Graph) (n : String) : List String := (getKey g n).getD []

/-- `Object.keys`, in insertion order. -/
def keysOf {β : Type} (m : List (String × β)) : List String := m.map Prod.fst

/-- Every string that occurs in the graph, as a key or inside a
dependency list.  Used only to size the fuel of the DFS. -/
def namesOf (g : Graph) : List String := keysOf g ++ (g.map Prod.snd).flatten

/-- Fuel that dominates the DFS recursion depth: the stack of `temp`-marked
nodes always consists of distinct members of `namesOf g`. -/
def fuelOf (g : Graph) : Nat := (namesOf g).length + 1

/-- The mutable state of `topologicalSort`'s DFS (`result`, `visited`, `temp`). -/
structure DfsState where
  result : List String
  visited : List String
  temp : List String
deriving Repr, DecidableEq

/-- The dependency loop `for (const dep of deps) visit(dep)` of
`topologicalSort`, abstracted over the one-node visit function. -/
def visitList (visit1 : String → DfsState → Except String DfsState) :
    List String → DfsState → Except String DfsState
  | [], s => .ok s
  | d :: ds, s =>
    match visit1 d s with
    | .error e => .error e
    | .ok s' => visitList visit1 ds s'

/-- The recursive `visit` of `topologicalSort` (src/unnamed/part_001, lines
65-83).  The fuel bounds the recursion depth; the stack of `temp`-marked
nodes always consists of distinct members of `namesOf g`, so `fuelOf g`
never runs out. -/
def visit (g : Graph) : Nat → String → DfsState → Except String DfsState
  | 0, _, _ => .error "Maximum call stack size exceeded"
  | fuel+1, node, s =>
    if node ∈ s.temp then .error ("Circular dependency detected: " ++ node)
    else if node ∈ s.visited then .ok s
    else
      match visitList (visit g fuel) (depsOf g node) { s with temp := node :: s.temp } with
      | .error e => .error e
      | .ok s' =>
          .ok { result := s'.result ++ [node]
                visited := node :: s'.visited
                temp := s'.temp.erase node }

/-- The outer loop of `topologicalSort`:
`for (const node of nodes) if (!visited.has(node)) visit(node)`. -/
def sortLoop (g : Graph) (fuel : Nat) : List String → DfsState → Except String DfsState
  | [], s => .ok s
  | n :: ns, s =>
    if n ∈ s.visited then sortLoop g fuel ns s
    else
      match visit g fuel n s with
      | .error e => .error e
      | .ok s' => sortLoop g fuel ns s'

/-- `topologicalSort(dependencies)` from src/unnamed/part_001. -/
def topologicalSort (g : Graph) : Except String (List String) :=
  match sortLoop g (fuelOf g) (keysOf g) ⟨[], [], []⟩ with
  | .error e => .error e
  | .ok s => .ok s.result

example : topologicalSort [("a", []), ("b", ["a"]), ("c", ["a"]), ("d", ["b", "c"])]
    = .ok ["a", "b", "c", "d"] := by rfl

example : topologicalSort [("a", ["b"]), ("b", ["a"])]
    = .error "Circular dependency detected: a" := by rfl

/-- `v ∈ dependencies[u]`: u depends directly on v (the edge the DFS follows). -/
def edgeRel (g : Graph) (u v : String) : Prop := v ∈ depsOf g u

/-- An acyclic dependency graph: no node depends transitively on itself. -/
def Acyclic (g : Graph) : Prop := ∀ n, ¬ Relation.TransGen (edgeRel g) n n

/-- `u` occurs at a strictly smaller index than `v` in `r`. -/
def Before (r : List String) (u v : String) : Prop :=
  ∃ i j : Nat, i < j ∧ r[i]? = some u ∧ r[j]? = some v

/-- Every element's direct dependencies occur at smaller indices. -/
def DepsBefore (g : Graph) (r : List String) : Prop :=
  ∀ (j : Nat) (x : String), r[j]? = some x →
    ∀ d ∈ depsOf g x, ∃ i : Nat, i < j ∧ r[i]? = some d

/-- Invariant of the DFS state: the result list is duplicate-free, mirrors
the visited set, and already lists dependencies before dependents. -/
structure DfsInv (g : Graph) (s : DfsState) : Prop where
  nd : s.result.Nodup
  vis_res : ∀ x, x ∈ s.visited ↔ x ∈ s.result
  db : DepsBefore g s.result

theorem mem_of_getKey_some {β : Type} {m : List (String × β)} {k : String} {v : β}
    (h : getKey m k = some v) : (k, v) ∈ m := by
  induction m with
  | nil => simp [getKey] at h
  | cons p rest ih =>
    obtain ⟨k', v'⟩ := p
    by_cases hk : k' = k
    · subst hk
      simp [getKey] at h
      simp [h]
    · simp [getKey, hk] at h
      exact List.mem_cons_of_mem _ (ih h)

theorem depsOf_subset_namesOf {g : Graph} {n d : String} (h : d ∈ depsOf g n) :
    d ∈ namesOf g := by
  unfold depsOf at h
  cases hk : getKey g n with
  | none => rw [hk] at h; simp at h
  | some ds =>
    rw [hk] at h
    simp only [Option.getD_some] at h
    have hmem : (n, ds) ∈ g := mem_of_getKey_some hk
    unfold namesOf
    refine List.mem_append_right _ ?_
    rw [List.mem_flatten]
    exact ⟨ds, List.mem_map.mpr ⟨(n, ds), hmem, rfl⟩, h⟩

theorem keysOf_subset_namesOf {g : Graph} {n : String} (h : n ∈ keysOf g) :
    n ∈ namesOf g := List.mem_append_left _ h

/-- Appending a node whose dependencies are all already listed preserves the
DFS invariant (the "finish node" step of `visit`). -/
theorem DfsInv.finish {g : Graph} {s₁ : DfsState} (h : DfsInv g s₁) {node : String}
    (hdeps : ∀ d ∈ depsOf g node, d ∈ s₁.result) (hnode : node ∉ s₁.result)
    (t : List String) :
    DfsInv g ⟨s₁.result ++ [node], node :: s₁.visited, t⟩ := by
  refine ⟨?_, ?_, ?_⟩
  · rw [List.nodup_append]
    refine ⟨h.nd, List.nodup_singleton _, ?_⟩
    intro a ha hb
    simp only [List.mem_singleton] at hb
    subst hb
    exact hnode ha
  · intro x
    simp only [List.mem_cons, List.mem_append, List.mem_singleton]
    rw [h.vis_res x]
    tauto
  · unfold DepsBefore
    intro j x hx d hd
    simp only at hx
    by_cases hj : j < s₁.result.length
    · rw [List.getElem?_append_left hj] at hx
      obtain ⟨i, hi, hix⟩ := h.db j x hx d hd
      exact ⟨i, hi, by
        rw [List.getElem?_append_left (lt_trans hi hj)]
        exact hix⟩
    · push_neg at hj
      rw [List.getElem?_append_right hj] at hx
      have hx0 : j - s₁.result.length = 0 ∧ x = node := by
        cases hzero : j - s₁.result.length with
        | zero => simp [hzero] at hx; exact ⟨rfl, hx.symm⟩
        | succ m => simp [hzero] at hx
      obtain ⟨hj0, rfl⟩ := hx0
      have hjlen : j = s₁.result.length := by omega
      have hdr : d ∈ s₁.result := hdeps d hd
      obtain ⟨i, hi⟩ := List.mem_iff_getElem?.mp hdr
      have hilen : i < s₁.result.length := (List.getElem?_eq_some_iff.mp hi).1
      refine ⟨i, by omega, ?_⟩
      rw [List.getElem?_append_left hilen]
      exact hi

theorem card_sdiff_cons_lt {g : Graph} {temp : List String} {node : String} {fuel : Nat}
    (hmem : node ∈ namesOf g) (hnot : node ∉ temp)
    (h : ((namesOf g).toFinset \ temp.toFinset).card < fuel + 1) :
    ((namesOf g).toFinset \ (node :: temp).toFinset).card < fuel := by
  rw [List.toFinset_cons, Finset.sdiff_insert]
  have hm : node ∈ (namesOf g).toFinset \ temp.toFinset := by
    rw [Finset.mem_sdiff]
    exact ⟨List.mem_toFinset.mpr hmem, fun hc => hnot (List.mem_toFinset.mp hc)⟩
  rw [Finset.card_erase_of_mem hm]
  have hpos : 0 < ((namesOf g).toFinset \ temp.toFinset).card :=
    Finset.card_pos.mpr ⟨node, hm⟩
  omega

/-- If the one-node visit `f` succeeds and is well-behaved on states whose
`temp` stack is `T`, so is the dependency loop. -/
theorem visitList_total (g : Graph) (f : String → DfsState → Except String DfsState)
    (T : List String)
    (hf : ∀ d s, s.temp = T → DfsInv g s → d ∈ namesOf g →
      (∀ t ∈ T, Relation.TransGen (edgeRel g) t d) →
      ∃ s', f d s = .ok s' ∧ DfsInv g s' ∧ s'.temp = T ∧ d ∈ s'.visited ∧
        (∀ x ∈ s.visited, x ∈ s'.visited) ∧
        (∀ x ∈ s'.visited, x ∈ s.visited ∨ (x ∉ T ∧ x ∈ namesOf g))) :
    ∀ ds s, s.temp = T → DfsInv g s → (∀ d ∈ ds, d ∈ namesOf g) →
      (∀ t ∈ T, ∀ d ∈ ds, Relation.TransGen (edgeRel g) t d) →
      ∃ s', visitList f ds s = .ok s' ∧ DfsInv g s' ∧ s'.temp = T ∧
        (∀ d ∈ ds, d ∈ s'.visited) ∧ (∀ x ∈ s.visited, x ∈ s'.visited) ∧
        (∀ x ∈ s'.visited, x ∈ s.visited ∨ (x ∉ T ∧ x ∈ namesOf g)) := by
  intro ds
  induction ds with
  | nil =>
    intro s hT h1 _ _
    exact ⟨s, rfl, h1, hT, by simp, fun x hx => hx, fun x hx => Or.inl hx⟩
  | cons d ds ih =>
    intro s hT h1 h2 h3
    obtain ⟨s₁, hs₁, hInv₁, hT₁, hd₁, hmono₁, hnew₁⟩ :=
      hf d s hT h1 (h2 d (by simp)) (fun t ht => h3 t ht d (by simp))
    obtain ⟨s₂, hs₂, hInv₂, hT₂, hds₂, hmono₂, hnew₂⟩ :=
      ih s₁ hT₁ hInv₁ (fun x hx => h2 x (by simp [hx]))
        (fun t ht x hx => h3 t ht x (by simp [hx]))
    refine ⟨s₂, ?_, hInv₂, hT₂, ?_, ?_, ?_⟩
    · simp only [visitList, hs₁]
      exact hs₂
    · intro x hx
      rcases List.mem_cons.mp hx with h | h
      · subst h; exact hmono₂ x hd₁
      · exact hds₂ x h
    · intro x hx
      exact hmono₂ x (hmono₁ x hx)
    · intro x hx
      rcases hnew₂ x hx with h | h
      · exact hnew₁ x h
      · exact Or.inr h

/-- Totality and partial correctness of `visit` on an acyclic graph: given
enough fuel, visiting a node succeeds, preserves the invariant and the
`temp` stack, and marks the node visited. -/
theorem visit_total (g : Graph) (hA : Acyclic g) :
    ∀ fuel node s, DfsInv g s → (∀ t ∈ s.temp, t ∈ namesOf g) → node ∈ namesOf g →
      (∀ t ∈ s.temp, Relation.TransGen (edgeRel g) t node) →
      ((namesOf g).toFinset \ s.temp.toFinset).card < fuel →
      ∃ s', visit g fuel node s = .ok s' ∧ DfsInv g s' ∧ s'.temp = s.temp ∧
        node ∈ s'.visited ∧ (∀ x ∈ s.visited, x ∈ s'.visited) ∧
        (∀ x ∈ s'.visited, x ∈ s.visited ∨ (x ∉ s.temp ∧ x ∈ namesOf g)) := by
  intro fuel
  induction fuel with
  | zero =>
    intro node s _ _ _ _ h5
    omega
  | succ fuel ih =>
    intro node s h1 h2 h3 h4 h5
    have hnt : node ∉ s.temp := fun hin => hA node (h4 node hin)
    by_cases hv : node ∈ s.visited
    · refine ⟨s, ?_, h1, rfl, hv, fun x hx => hx, fun x hx => Or.inl hx⟩
      simp only [visit]
      rw [if_neg hnt, if_pos hv]
    · have hc' : ((namesOf g).toFinset \ (node :: s.temp).toFinset).card < fuel :=
        card_sdiff_cons_lt h3 hnt h5
      have hf : ∀ d s', s'.temp = node :: s.temp → DfsInv g s' → d ∈ namesOf g →
          (∀ t ∈ node :: s.temp, Relation.TransGen (edgeRel g) t d) →
          ∃ s'', visit g fuel d s' = .ok s'' ∧ DfsInv g s'' ∧
            s''.temp = node :: s.temp ∧ d ∈ s''.visited ∧
            (∀ x ∈ s'.visited, x ∈ s''.visited) ∧
            (∀ x ∈ s''.visited, x ∈ s'.visited ∨
              (x ∉ node :: s.temp ∧ x ∈ namesOf g)) := by
        intro d s' hT hInv hd hpath
        have := ih d s' hInv
          (by rw [hT]; intro t ht
              rcases List.mem_cons.mp ht with h | h
              · subst h; exact h3
              · exact h2 t h)
          hd (by rw [hT]; exact hpath) (by rw [hT]; exact hc')
        obtain ⟨s'', he, hi, ht, hdv, hm, hn⟩ := this
        exact ⟨s'', he, hi, by rw [ht, hT], hdv, hm, by rw [hT] at hn; exact hn⟩
      have hpaths : ∀ t ∈ node :: s.temp, ∀ d ∈ depsOf g node,
          Relation.TransGen (edgeRel g) t d := by
        intro t ht d hd
        rcases List.mem_cons.mp ht with h | h
        · subst h; exact Relation.TransGen.single hd
        · exact Relation.TransGen.tail (h4 t h) hd
      obtain ⟨s₁, hs₁, hInv₁, hT₁, hdeps₁, hmono₁, hnew₁⟩ :=
        visitList_total g (visit g fuel) (node :: s.temp) hf (depsOf g node)
          { s with temp := node :: s.temp } rfl ⟨h1.nd, h1.vis_res, h1.db⟩
          (fun d hd => depsOf_subset_namesOf hd) hpaths
      have hnode_nv : node ∉ s₁.visited := by
        intro hc
        rcases hnew₁ node hc with h | h
        · exact hv h
        · exact h.1 (by simp)
      have hnode_nr : node ∉ s₁.result := fun hc => hnode_nv ((hInv₁.vis_res node).mpr hc)
      have hdeps_res : ∀ d ∈ depsOf g node, d ∈ s₁.result :=
        fun d hd => (hInv₁.vis_res d).mp (hdeps₁ d hd)
      refine ⟨⟨s₁.result ++ [node], node :: s₁.visited, s₁.temp.erase node⟩, ?_, ?_, ?_, ?_, ?_, ?_⟩
      · simp only [visit]
        rw [if_neg hnt, if_neg hv, hs₁]
      · exact hInv₁.finish hdeps_res hnode_nr _
      · simp only
        rw [hT₁, List.erase_cons_head]
      · simp
      · intro x hx
        exact List.mem_cons_of_mem _ (hmono₁ x hx)
      · intro x hx
        rcases List.mem_cons.mp hx with h | h
        · subst h; exact Or.inr ⟨hnt, h3⟩
        · rcases hnew₁ x h with h' | h'
          · exact Or.inl h'
          · exact Or.inr ⟨fun hc => h'.1 (List.mem_cons_of_mem _ hc), h'.2⟩

/-- Totality of the outer loop of `topologicalSort` on an acyclic graph. -/
theorem sortLoop_total (g : Graph) (hA : Acyclic g) :
    ∀ ks s, DfsInv g s → s.temp = [] → (∀ k ∈ ks, k ∈ namesOf g) →
      ∃ s', sortLoop g (fuelOf g) ks s = .ok s' ∧ DfsInv g s' ∧ s'.temp = [] ∧
        (∀ k ∈ ks, k ∈ s'.visited) ∧ (∀ x ∈ s.visited, x ∈ s'.visited) := by
  intro ks
  induction ks with
  | nil =>
    intro s h1 h2 _
    exact ⟨s, rfl, h1, h2, by simp, fun x hx => hx⟩
  | cons n ns ih =>
    intro s h1 h2 h3
    by_cases hv : n ∈ s.visited
    · obtain ⟨s', hs', hInv', hT', hks', hmono'⟩ :=
        ih s h1 h2 (fun k hk => h3 k (by simp [hk]))
      refine ⟨s', ?_, hInv', hT', ?_, hmono'⟩
      · simp only [sortLoop]
        rw [if_pos hv]
        exact hs'
      · intro k hk
        rcases List.mem_cons.mp hk with h | h
        · subst h; exact hmono' k hv
        · exact hks' k h
    · have hcard : ((namesOf g).toFinset \ s.temp.toFinset).card < fuelOf g := by
        rw [h2]
        simp only [List.toFinset_nil, Finset.sdiff_empty]
        have := (namesOf g).toFinset_card_le
        unfold fuelOf
        omega
      obtain ⟨s₁, hs₁, hInv₁, hT₁, hn₁, hmono₁, _⟩ :=
        visit_total g hA (fuelOf g) n s h1 (by rw [h2]; simp)
          (h3 n (by simp)) (by rw [h2]; simp) hcard
      obtain ⟨s₂, hs₂, hInv₂, hT₂, hks₂, hmono₂⟩ :=
        ih s₁ hInv₁ (by rw [hT₁, h2]) (fun k hk => h3 k (by simp [hk]))
      refine ⟨s₂, ?_, hInv₂, hT₂, ?_, ?_⟩
      · simp only [sortLoop]
        rw [if_neg hv, hs₁]
        exact hs₂
      · intro k hk
        rcases List.mem_cons.mp hk with h | h
        · subst h; exact hmono₂ k hn₁
        · exact hks₂ k h
      · intro x hx
        exact hmono₂ x (hmono₁ x hx)

/-- In a dependency-respecting list, every transitive dependency of a listed
node occurs strictly before it. -/
theorem transGen_before {g : Graph} {r : List String} (db : DepsBefore g r) :
    ∀ v u, Relation.TransGen (edgeRel g) v u → v ∈ r → Before r u v := by
  intro v u h
  induction h with
  | single hvb =>
    intro hv
    obtain ⟨j, hj⟩ := List.mem_iff_getElem?.mp hv
    obtain ⟨i, hi, hir⟩ := db j v hj _ hvb
    exact ⟨i, j, hi, hir, hj⟩
  | tail _ hbu ih =>
    intro hv
    obtain ⟨ib, jv, hij, hb, hvj⟩ := ih hv
    obtain ⟨iu, hiu, hur⟩ := db ib _ hb _ hbu
    exact ⟨iu, jv, lt_trans hiu hij, hur, hvj⟩

/-- C1: For every acyclic dependency graph, `topologicalSort` succeeds; its
output contains every node (key) of the graph and places each dependency
before every node that depends on it, directly or transitively; and any two
invocations on the same graph return exactly the same sequence. -/
theorem topologicalSort_spec (g : Graph) (hA : Acyclic g) :
    ∃ r, topologicalSort g = .ok r ∧
      (∀ k ∈ keysOf g, k ∈ r) ∧
      (∀ v u, v ∈ r → Relation.TransGen (edgeRel g) v u → Before r u v) ∧
      (∀ r', topologicalSort g = .ok r' → r' = r) := by
  have hInv0 : DfsInv g ⟨[], [], []⟩ := by
    refine ⟨List.nodup_nil, by simp, ?_⟩
    intro j x hx
    simp at hx
  obtain ⟨s', hs', hInv', _, hks', _⟩ :=
    sortLoop_total g hA (keysOf g) ⟨[], [], []⟩ hInv0 rfl
      (fun k hk => keysOf_subset_namesOf hk)
  refine ⟨s'.result, ?_, ?_, ?_, ?_⟩
  · unfold topologicalSort
    rw [hs']
  · intro k hk
    exact (hInv'.vis_res k).mp (hks' k hk)
  · intro v u hv htrans
    exact transGen_before hInv'.db v u htrans hv
  · intro r' hr'
    unfold topologicalSort at hr'
    rw [hs'] at hr'
    exact (Except.ok.injEq _ _).mp hr'.symm

/-- A one-node graph used as a concrete witness input. -/
def gOne : Graph := [("x", [])]

/-- Witness for C1 at a concrete acyclic graph with a single node. -/
theorem topologicalSort_spec_witness :
    Acyclic gOne ∧
      ∃ r, topologicalSort gOne = .ok r ∧
        (∀ k ∈ keysOf gOne, k ∈ r) ∧
        (∀ v u, v ∈ r → Relation.TransGen (edgeRel gOne) v u → Before r u v) ∧
        (∀ r', topologicalSort gOne = .ok r' → r' = r) := by
  have hA : Acyclic gOne := by
    intro n h
    have hedge : ∀ a b : String, ¬ edgeRel gOne a b := by
      intro a b hab
      unfold edgeRel depsOf gOne getKey at hab
      by_cases hx : "x" = a
      · simp [hx] at hab
      · simp [hx, getKey] at hab
    rcases h with h | h
    · exact hedge _ _ h
    · next hstep => exact hedge _ _ hstep
  exact ⟨hA, topologicalSort_spec gOne hA⟩

/-- Partial-correctness of the dependency loop: posts hold whenever it
returns `.ok`, with no acyclicity assumption. -/
theorem visitList_sound (g : Graph) (f : String → DfsState → Except String DfsState)
    (hf : ∀ d s s', f d s = .ok s' → DfsInv g s →
      DfsInv g s' ∧ s'.temp = s.temp ∧ d ∈ s'.visited ∧
      (∀ x ∈ s.visited, x ∈ s'.visited) ∧
      (∀ x ∈ s'.visited, x ∈ s.visited ∨ x ∉ s.temp)) :
    ∀ ds s s', visitList f ds s = .ok s' → DfsInv g s →
      DfsInv g s' ∧ s'.temp = s.temp ∧ (∀ d ∈ ds, d ∈ s'.visited) ∧
      (∀ x ∈ s.visited, x ∈ s'.visited) ∧
      (∀ x ∈ s'.visited, x ∈ s.visited ∨ x ∉ s.temp) := by
  intro ds
  induction ds with
  | nil =>
    intro s s' h h1
    simp only [visitList] at h
    cases h
    exact ⟨h1, rfl, by simp, fun x hx => hx, fun x hx => Or.inl hx⟩
  | cons d ds ih =>
    intro s s' h h1
    simp only [visitList] at h
    cases hd : f d s with
    | error e => rw [hd] at h; cases h
    | ok s₁ =>
      rw [hd] at h
      obtain ⟨hInv₁, hT₁, hd₁, hmono₁, hnew₁⟩ := hf d s s₁ hd h1
      obtain ⟨hInv₂, hT₂, hds₂, hmono₂, hnew₂⟩ := ih s₁ s' h hInv₁
      refine ⟨hInv₂, by rw [hT₂, hT₁], ?_, ?_, ?_⟩
      · intro x hx
        rcases List.mem_cons.mp hx with hh | hh
        · subst hh; exact hmono₂ x hd₁
        · exact hds₂ x hh
      · intro x hx
        exact hmono₂ x (hmono₁ x hx)
      · intro x hx
        rcases hnew₂ x hx with hh | hh
        · exact hnew₁ x hh
        · rw [hT₁] at hh
          exact Or.inr hh

/-- Partial correctness of `visit`: whenever it returns `.ok`, the DFS
invariant is preserved, the `temp` stack is restored and the node is
visited. -/
theorem visit_sound (g : Graph) :
    ∀ fuel node s s', visit g fuel node s = .ok s' → DfsInv g s →
      DfsInv g s' ∧ s'.temp = s.temp ∧ node ∈ s'.visited ∧
      (∀ x ∈ s.visited, x ∈ s'.visited) ∧
      (∀ x ∈ s'.visited, x ∈ s.visited ∨ x ∉ s.temp) := by
  intro fuel
  induction fuel with
  | zero =>
    intro node s s' h
    simp [visit] at h
  | succ fuel ih =>
    intro node s s' h h1
    simp only [visit] at h
    by_cases ht : node ∈ s.temp
    · rw [if_pos ht] at h; cases h
    · rw [if_neg ht] at h
      by_cases hv : node ∈ s.visited
      · rw [if_pos hv] at h
        cases h
        exact ⟨h1, rfl, hv, fun x hx => hx, fun x hx => Or.inl hx⟩
      · rw [if_neg hv] at h
        cases hds : visitList (visit g fuel) (depsOf g node)
            { s with temp := node :: s.temp } with
        | error e => rw [hds] at h; cases h
        | ok s₁ =>
          rw [hds] at h
          cases h
          obtain ⟨hInv₁, hT₁, hds₁, hmono₁, hnew₁⟩ :=
            visitList_sound g (visit g fuel) (fun d s s' hd hI => ih d s s' hd hI)
              (depsOf g node) { s with temp := node :: s.temp } s₁ hds
              ⟨h1.nd, h1.vis_res, h1.db⟩
          have hnode_nv : node ∉ s₁.visited := by
            intro hc
            rcases hnew₁ node hc with hh | hh
            · exact hv hh
            · exact hh (by simp)
          have hnode_nr : node ∉ s₁.result :=
            fun hc => hnode_nv ((hInv₁.vis_res node).mpr hc)
          have hdeps_res : ∀ d ∈ depsOf g node, d ∈ s₁.result :=
            fun d hd => (hInv₁.vis_res d).mp (hds₁ d hd)
          refine ⟨hInv₁.finish hdeps_res hnode_nr _, ?_, by simp, ?_, ?_⟩
          · simp only
            rw [hT₁, List.erase_cons_head]
          · intro x hx
            exact List.mem_cons_of_mem _ (hmono₁ x hx)
          · intro x hx
            rcases List.mem_cons.mp hx with hh | hh
            · subst hh; exact Or.inr ht
            · rcases hnew₁ x hh with hh' | hh'
              · exact Or.inl hh'
              · exact Or.inr (fun hc => hh' (List.mem_cons_of_mem _ hc))

/-- Partial correctness of the outer loop of `topologicalSort`. -/
theorem sortLoop_sound (g : Graph) (fuel : Nat) :
    ∀ ks s s', sortLoop g fuel ks s = .ok s' → DfsInv g s →
      DfsInv g s' ∧ (∀ k ∈ ks, k ∈ s'.visited) ∧
      (∀ x ∈ s.visited, x ∈ s'.visited) := by
  intro ks
  induction ks with
  | nil =>
    intro s s' h h1
    simp only [sortLoop] at h
    cases h
    exact ⟨h1, by simp, fun x hx => hx⟩
  | cons n ns ih =>
    intro s s' h h1
    simp only [sortLoop] at h
    by_cases hv : n ∈ s.visited
    · rw [if_pos hv] at h
      obtain ⟨hInv', hks', hmono'⟩ := ih s s' h h1
      refine ⟨hInv', ?_, hmono'⟩
      intro k hk
      rcases List.mem_cons.mp hk with hh | hh
      · subst hh; exact hmono' k hv
      · exact hks' k hh
    · rw [if_neg hv] at h
      cases hvst : visit g fuel n s with
      | error e => rw [hvst] at h; cases h
      | ok s₁ =>
        rw [hvst] at h
        obtain ⟨hInv₁, _, hn₁, hmono₁, _⟩ := visit_sound g fuel n s s₁ hvst h1
        obtain ⟨hInv₂, hks₂, hmono₂⟩ := ih s₁ s' h hInv₁
        refine ⟨hInv₂, ?_, ?_⟩
        · intro k hk
          rcases List.mem_cons.mp hk with hh | hh
          · subst hh; exact hmono₂ k hn₁
          · exact hks₂ k hh
        · intro x hx
          exact hmono₂ x (hmono₁ x hx)

/-- Whenever `topologicalSort` succeeds, its output is duplicate-free, lists
dependencies before dependents, and contains every key of the graph. -/
theorem topologicalSort_sound {g : Graph} {r : List String}
    (h : topologicalSort g = .ok r) :
    r.Nodup ∧ DepsBefore g r ∧ (∀ k ∈ keysOf g, k ∈ r) := by
  unfold topologicalSort at h
  cases hs : sortLoop g (fuelOf g) (keysOf g) ⟨[], [], []⟩ with
  | error e => rw [hs] at h; cases h
  | ok s' =>
    rw [hs] at h
    cases h
    have hInv0 : DfsInv g ⟨[], [], []⟩ := by
      refine ⟨List.nodup_nil, by simp, ?_⟩
      intro j x hx
      simp at hx
    obtain ⟨hInv', hks', _⟩ := sortLoop_sound g (fuelOf g) (keysOf g) _ _ hs hInv0
    exact ⟨hInv'.nd, hInv'.db, fun k hk => (hInv'.vis_res k).mp (hks' k hk)⟩

/-- Outcome of invoking a JS callable: a plain value, or a Promise that
will resolve to a value or reject with an error message. -/
inductive StepOutcome (V : Type)
  | val (v : V)
  | promise (p : Except String V)

/-- `isPromise(obj)` from src/unnamed/part_001, on modelled outcomes. -/
def StepOutcome.isPromise {V : Type} : StepOutcome V → Bool
  | .val _ => false
  | .promise _ => true

/-- A step implementation closure.  The `Nat` argument is the number of its
own earlier invocations: it renders, deterministically, the mutable state a
JS implementation closure may capture (such as a counter incremented on
every call).  A pure implementation ignores it. -/
def Impl (V : Type) : Type := Nat → List (String × V) → Except String (StepOutcome V)

/-- `FlowAction` from src/src/types.ts: `(container, context) => result`. -/
def FlowAction (V : Type) : Type := V → List (String × V) → Except String (StepOutcome V)

/-- `FlowStepDefinition` from src/src/types.ts. -/
structure FlowStepDef (V : Type) where
  action : FlowAction V

/-- `FlowDefinition` from src/src/types.ts. -/
structure FlowDefinition (V : Type) where
  steps : List (String × FlowStepDef V)
  dependencies : Graph

/-- Ghost trace of engine calls: which callable was invoked, with which
arguments, and what it returned.  Pure observational instrumentation of the
source's call sites; it does not influence control flow, except that an
implementation receives its own prior call count (its closure state). -/
inductive CallEvt (V : Type)
  | impl (step : String) (inputs : List (String × V))
      (outcome : Except String (StepOutcome V))
  | action (step : String) (container : V) (context : List (String × V))
      (outcome : Except String (StepOutcome V))

/-- How often the implementation of step `s` has been invoked in `log`. -/
def implCallCount {V : Type} (log : List (CallEvt V)) (s : String) : Nat :=
  log.countP (fun e => match e with
    | .impl t _ _ => t == s
    | _ => false)

/-- `WorkflowInstance` from src/src/workflow.ts.  `log` is the ghost call
trace (not a field of the JS class). -/
structure WorkflowInstance (V : Type) where
  steps : List (String × Impl V)
  dependencies : Graph
  flows : List (String × FlowDefinition V)
  buildFlowName : String
  containers : List (String × V)
  log : List (CallEvt V)

/-- The error wrapper of the catch blocks (workflow.ts 100-105, 185-190):
the wrapped message names the failing step and carries the cause. -/
def wrapErr (s msg : String) : String :=
  "Step \"" ++ s ++ "\" failed: " ++ msg

def buildPromiseMsg (s : String) : String :=
  "Step \"" ++ s ++ "\" returned a Promise, but execute requires synchronous execution. Use executeAsync instead."

def actionPromiseMsg (s : String) : String :=
  "Flow action for \"" ++ s ++ "\" returned a Promise, but execute requires synchronous execution. Use executeAsync instead."

/-- The TypeError JS raises when `this.steps[stepName]` is undefined. -/
def implMissingMsg : String := "this.steps[stepName] is not a function"

/-- `inputData`: the dependency values drawn from the container store
(workflow.ts 60-66); a missing container entry reads as `undefined`. -/
def inputsFor {V : Type} (undef : V) (conts : List (String × V)) (deps : List String) :
    List (String × V) :=
  deps.map (fun d => (d, (getKey conts d).getD undef))

/-- The step loop of `execute` (workflow.ts 51-106).  Arguments: remaining
execution order, context, results, containers, full call log.  Returns the
run outcome together with the final containers and log — container writes
made before a throw persist, exactly as in the source. -/
def executeLoop {V : Type} (undef : V) (w : WorkflowInstance V)
    (flow : FlowDefinition V) (isBuild : Bool) :
    List String → List (String × V) → List (String × V) → List (String × V) →
    List (CallEvt V) →
    Except String (List (String × V) × List (String × V)) ×
      List (String × V) × List (CallEvt V)
  | [], ctx, res, conts, log => (.ok (ctx, res), conts, log)
  | stepName :: rest, ctx, res, conts, log =>
    match getKey flow.steps stepName with
    | none => executeLoop undef w flow isBuild rest ctx res conts log
    | some fsd =>
      if isBuild then
        match getKey w.steps stepName with
        | none => (.error (wrapErr stepName implMissingMsg), conts, log)
        | some impl =>
          let inputData := inputsFor undef conts (depsOf w.dependencies stepName)
          let outcome := impl (implCallCount log stepName) inputData
          let log' := log ++ [CallEvt.impl stepName inputData outcome]
          match outcome with
          | .error e => (.error (wrapErr stepName e), conts, log')
          | .ok (.promise _) =>
              (.error (wrapErr stepName (buildPromiseMsg stepName)), conts, log')
          | .ok (.val v) =>
              executeLoop undef w flow isBuild rest (setKey ctx stepName v)
                (setKey res stepName v) (setKey conts stepName v) log'
      else
        let container := (getKey conts stepName).getD undef
        let outcome := fsd.action container ctx
        let log' := log ++ [CallEvt.action stepName container ctx outcome]
        match outcome with
        | .error e => (.error (wrapErr stepName e), conts, log')
        | .ok (.promise _) =>
            (.error (wrapErr stepName (actionPromiseMsg stepName)), conts, log')
        | .ok (.val v) =>
            executeLoop undef w flow isBuild rest (setKey ctx stepName v)
              (setKey res stepName v) conts log'

/-- `{ results, success }` returned by `execute`/`executeAsync`. -/
structure RunResult (V : Type) where
  results : List (String × V)
  success : Bool

/-- `execute(flowName)` from src/src/workflow.ts (lines 40-112).  Returns
the run outcome, the instance with its (possibly) updated containers, and
the ghost trace of this run. -/
def execute {V : Type} (undef : V) (w : WorkflowInstance V) (flowName : String) :
    Except String (RunResult V) × WorkflowInstance V × List (CallEvt V) :=
  match getKey w.flows flowName with
  | none => (.error ("Flow \"" ++ flowName ++ "\" does not exist"), w, [])
  | some flow =>
    match topologicalSort flow.dependencies with
    | .error e => (.error e, w, [])
    | .ok order =>
      match executeLoop undef w flow (flowName == w.buildFlowName) order
          [] [] w.containers w.log with
      | (.error e, conts, log') =>
          (.error e, { w with containers := conts, log := log' },
            log'.drop w.log.length)
      | (.ok (_, res), conts, log') =>
          (.ok ⟨res, true⟩, { w with containers := conts, log := log' },
            log'.drop w.log.length)

/-- `refresh()` from src/src/workflow.ts (lines 27-34): re-execute the build
flow; the catch block rethrows unchanged. -/
def refresh {V : Type} (undef : V) (w : WorkflowInstance V) :
    Except String Unit × WorkflowInstance V × List (CallEvt V) :=
  match execute undef w w.buildFlowName with
  | (.error e, w', tr) => (.error e, w', tr)
  | (.ok _, w', tr) => (.ok (), w', tr)

/-- Maximum of a list of levels, `none` if any is `none`.  Mirrors the
`maxDepLevel` fold of `groupStepsByLevel` (workflow.ts 243-248): levels are
naturals, so for the nonempty lists this is applied to, starting from `0`
agrees with the source's `-1` seed. -/
def maxLevels : List (Option Nat) → Option Nat
  | [] => some 0
  | none :: _ => none
  | some l :: os =>
    match maxLevels os with
    | none => none
    | some m => some (max l m)

/-- `getStepLevel` from `groupStepsByLevel` (workflow.ts 227-254).  The
memo table of the source caches a pure recursive function and is elided;
fuel bounds the recursion depth, which on the graphs the engine accepts is
below `fuelOf`.  `none` models non-termination (a cycle). -/
def getStepLevel (g : Graph) : Nat → String → Option Nat
  | 0, _ => none
  | fuel+1, n =>
    let ds := depsOf g n
    if ds.isEmpty then some 0
    else
      match maxLevels (ds.map (getStepLevel g fuel)) with
      | none => none
      | some m => some (m + 1)

/-- `while (levels.length <= level) levels.push([]); levels[level].push(s)`. -/
def addToLevel : List (List String) → Nat → String → List (List String)
  | [], 0, s => [[s]]
  | [], l+1, s => [] :: addToLevel [] l s
  | grp :: gs, 0, s => (grp ++ [s]) :: gs
  | grp :: gs, l+1, s => grp :: addToLevel gs l s

/-- The `for (const stepName of executionOrder)` loop of
`groupStepsByLevel` (workflow.ts 257-267). -/
def groupLoop (g : Graph) (fuel : Nat) :
    List String → List (List String) → Option (List (List String))
  | [], levels => some levels
  | s :: rest, levels =>
    match getStepLevel g fuel s with
    | none => none
    | some l => groupLoop g fuel rest (addToLevel levels l s)

/-- `groupStepsByLevel(flow, executionOrder)` from src/src/workflow.ts. -/
def groupStepsByLevel {V : Type} (flow : FlowDefinition V) (order : List String) :
    Option (List (List String)) :=
  groupLoop flow.dependencies (fuelOf flow.dependencies) order []

/-- Normalize an outcome as `executeAsync` does: await a Promise (which may
reject), pass a plain value through, propagate a synchronous throw. -/
def awaitOutcome {V : Type} : Except String (StepOutcome V) → Except String V
  | .error e => .error e
  | .ok (.val v) => .ok v
  | .ok (.promise p) => p

/-- One level of `executeAsync` (workflow.ts 135-191): every member step is
dispatched with the same context snapshot; returns the successful
`{stepName, result}` items, the wrapped errors, and the containers and log
after all members settle.  The source dispatches all members before
`Promise.all` settles, so each non-failing build step's container write
persists even when a sibling fails; the surfaced rejection is the first
failing member. -/
def runLevel {V : Type} (undef : V) (w : WorkflowInstance V)
    (flow : FlowDefinition V) (isBuild : Bool) (ctx : List (String × V)) :
    List String → List (String × V) → List (CallEvt V) →
    List (String × V) × List String × List (String × V) × List (CallEvt V)
  | [], conts, log => ([], [], conts, log)
  | s :: rest, conts, log =>
    match getKey flow.steps s with
    | none => runLevel undef w flow isBuild ctx rest conts log
    | some fsd =>
      if isBuild then
        match getKey w.steps s with
        | none =>
          let r := runLevel undef w flow isBuild ctx rest conts log
          (r.1, wrapErr s implMissingMsg :: r.2.1, r.2.2)
        | some impl =>
          let inputData := inputsFor undef conts (depsOf w.dependencies s)
          let outcome := impl (implCallCount log s) inputData
          let log₁ := log ++ [CallEvt.impl s inputData outcome]
          match awaitOutcome outcome with
          | .error e =>
            let r := runLevel undef w flow isBuild ctx rest conts log₁
            (r.1, wrapErr s e :: r.2.1, r.2.2)
          | .ok v =>
            let r := runLevel undef w flow isBuild ctx rest (setKey conts s v) log₁
            ((s, v) :: r.1, r.2.1, r.2.2)
      else
        let container := (getKey conts s).getD undef
        let outcome := fsd.action container ctx
        let log₁ := log ++ [CallEvt.action s container ctx outcome]
        match awaitOutcome outcome with
        | .error e =>
          let r := runLevel undef w flow isBuild ctx rest conts log₁
          (r.1, wrapErr s e :: r.2.1, r.2.2)
        | .ok v =>
          let r := runLevel undef w flow isBuild ctx rest conts log₁
          ((s, v) :: r.1, r.2.1, r.2.2)

/-- The level loop of `executeAsync` (workflow.ts 133-206): run a level,
abort the run on any failure in it (no later level is dispatched), fold the
successful items into context and results otherwise. -/
def runLevels {V : Type} (undef : V) (w : WorkflowInstance V)
    (flow : FlowDefinition V) (isBuild : Bool) :
    List (List String) → List (String × V) → List (String × V) →
    List (String × V) → List (CallEvt V) →
    Except String (List (String × V) × List (String × V)) ×
      List (String × V) × List (CallEvt V)
  | [], ctx, res, conts, log => (.ok (ctx, res), conts, log)
  | lvl :: rest, ctx, res, conts, log =>
    match runLevel undef w flow isBuild ctx lvl conts log with
    | (items, [], conts', log') =>
      let ctx' := items.foldl (fun m it => setKey m it.1 it.2) ctx
      let res' := items.foldl (fun m it => setKey m it.1 it.2) res
      runLevels undef w flow isBuild rest ctx' res' conts' log'
    | (_, e :: _, conts', log') => (.error e, conts', log')

/-- `executeAsync(flowName)` from src/src/workflow.ts (lines 118-212). -/
def executeAsync {V : Type} (undef : V) (w : WorkflowInstance V)
    (flowName : String) :
    Except String (RunResult V) × WorkflowInstance V × List (CallEvt V) :=
  match getKey w.flows flowName with
  | none => (.error ("Flow \"" ++ flowName ++ "\" does not exist"), w, [])
  | some flow =>
    match topologicalSort flow.dependencies with
    | .error e => (.error e, w, [])
    | .ok order =>
      match groupStepsByLevel flow order with
      | none => (.error "Maximum call stack size exceeded", w, [])
      | some levels =>
        match runLevels undef w flow (flowName == w.buildFlowName) levels
            [] [] w.containers w.log with
        | (.error e, conts, log') =>
            (.error e, { w with containers := conts, log := log' },
              log'.drop w.log.length)
        | (.ok (_, res), conts, log') =>
            (.ok ⟨res, true⟩, { w with containers := conts, log := log' },
              log'.drop w.log.length)

/-- The `visited`/`recStack` boolean maps of `hasCircularDependency`
(src/unnamed/part_001, lines 19-20); membership means `true`. -/
structure CycState where
  visited : List String
  recStack : List String

/-- The dependency loop of `hasCycle` (part_001, lines 27-34), abstracted
over the recursive one-node call:
`if (!visited[dep] && hasCycle(dep)) return true; else if (recStack[dep]) return true`. -/
def hasCycleDeps (hasCycle1 : String → CycState → Option (Bool × CycState)) :
    List String → CycState → Option (Bool × CycState)
  | [], st => some (false, st)
  | d :: ds, st =>
    if d ∉ st.visited then
      match hasCycle1 d st with
      | none => none
      | some (true, st') => some (true, st')
      | some (false, st') =>
        if d ∈ st'.recStack then some (true, st')
        else hasCycleDeps hasCycle1 ds st'
    else if d ∈ st.recStack then some (true, st)
    else hasCycleDeps hasCycle1 ds st

/-- `hasCycle(node)` from `hasCircularDependency` (part_001, lines 22-38);
`recStack[node] = false` is modelled by erasing the single occurrence.
`none` models running out of stack, which cannot happen at `fuelOf g`. -/
def hasCycleNode (g : Graph) : Nat → String → CycState → Option (Bool × CycState)
  | 0, _, _ => none
  | fuel+1, node, st =>
    if node ∈ st.visited then
      some (false, { st with recStack := st.recStack.erase node })
    else
      match hasCycleDeps (hasCycleNode g fuel) (depsOf g node)
          ⟨node :: st.visited, node :: st.recStack⟩ with
      | none => none
      | some (true, st') => some (true, st')
      | some (false, st') =>
          some (false, { st' with recStack := st'.recStack.erase node })

/-- The outer loop `for (const node of nodes) if (hasCycle(node)) return true`. -/
def hasCycleTop (g : Graph) (fuel : Nat) : List String → CycState → Option Bool
  | [], _ => some false
  | n :: ns, st =>
    match hasCycleNode g fuel n st with
    | none => none
    | some (true, _) => some true
    | some (false, st') => hasCycleTop g fuel ns st'

/-- `hasCircularDependency(dependencies)` from src/unnamed/part_001. -/
def hasCircularDependency (g : Graph) : Option Bool :=
  hasCycleTop g (fuelOf g) (keysOf g) ⟨[], []⟩

example : hasCircularDependency [("a", ["b"]), ("b", ["a"])] = some true := by rfl
example : hasCircularDependency [("a", []), ("b", ["a"])] = some false := by rfl

/-- The accumulating state of `WorkflowBuilder` (steps, base dependencies,
user-declared flows) at the moment `build()` is called. -/
structure WorkflowBuilderState (V : Type) where
  steps : List (String × Impl V)
  dependencies : Graph
  flows : List (String × FlowDefinition V)

/-- The duplicate check of `defineFlow(flowName)`
(src/src/builders/WorkflowBuilder.ts, lines 75-80). -/
def defineFlow {V : Type} (b : WorkflowBuilderState V) (flowName : String) :
    Except String Unit :=
  if (getKey b.flows flowName).isSome then
    .error ("Flow \"" ++ flowName ++ "\" already exists")
  else .ok ()

/-- `createBuildFlow()` (WorkflowBuilder.ts, lines 95-113): a flow over all
steps, copying the base dependency lists, whose action returns the current
container value. -/
def createBuildFlow {V : Type} (dependencies : Graph) : FlowDefinition V :=
  { steps := dependencies.map
      (fun p => (p.1, ⟨fun container _ => .ok (.val container)⟩))
    dependencies := dependencies.map (fun p => (p.1, p.2)) }

/-- The step-existence loop of `validateFlows` (WorkflowBuilder.ts 193-197). -/
def validateFlowSteps {V : Type} (steps : List (String × Impl V))
    (flowName : String) : List String → Except String Unit
  | [] => .ok ()
  | s :: rest =>
    if (getKey steps s).isSome then validateFlowSteps steps flowName rest
    else .error ("Flow \"" ++ flowName ++ "\" references step \"" ++ s ++
      "\" which does not exist in the main workflow")

/-- The per-step dependency loop of `validateFlows` (WorkflowBuilder.ts 201-209). -/
def validateDepList {V : Type} (steps : List (String × Impl V))
    (flowName stepName : String) (flowDeps : Graph) :
    List String → Except String Unit
  | [] => .ok ()
  | d :: ds =>
    if (getKey steps d).isNone then
      .error ("Flow \"" ++ flowName ++ "\" step \"" ++ stepName ++
        "\" depends on \"" ++ d ++ "\" which does not exist in the main workflow")
    else if (getKey flowDeps d).isNone then
      .error ("Flow \"" ++ flowName ++ "\" step \"" ++ stepName ++
        "\" depends on \"" ++ d ++ "\" which is not part of this flow")
    else validateDepList steps flowName stepName flowDeps ds

/-- The dependency-entries loop of `validateFlows` (WorkflowBuilder.ts 200-210). -/
def validateFlowDepEntries {V : Type} (steps : List (String × Impl V))
    (flowName : String) (flowDeps : Graph) :
    List (String × List String) → Except String Unit
  | [] => .ok ()
  | (s, ds) :: rest =>
    match validateDepList steps flowName s flowDeps ds with
    | .error e => .error e
    | .ok () => validateFlowDepEntries steps flowName flowDeps rest

/-- Validation of one flow: acyclicity, step existence, dependency scope
(WorkflowBuilder.ts 186-210). -/
def validateOneFlow {V : Type} (steps : List (String × Impl V))
    (flowName : String) (flow : FlowDefinition V) : Except String Unit :=
  match hasCircularDependency flow.dependencies with
  | none => .error "Maximum call stack size exceeded"
  | some true =>
      .error ("Circular dependency detected in flow \"" ++ flowName ++ "\"")
  | some false =>
    match validateFlowSteps steps flowName (keysOf flow.steps) with
    | .error e => .error e
    | .ok () => validateFlowDepEntries steps flowName flow.dependencies
        flow.dependencies

/-- `validateFlows()` (WorkflowBuilder.ts 185-212). -/
def validateFlows {V : Type} (steps : List (String × Impl V)) :
    List (String × FlowDefinition V) → Except String Unit
  | [] => .ok ()
  | (fn, fl) :: rest =>
    match validateOneFlow steps fn fl with
    | .error e => .error e
    | .ok () => validateFlows steps rest

/-- `build()` (WorkflowBuilder.ts 119-141): check the base graph for
cycles, validate the flows, register the synthesized build flow under
`"__build__"` (overwriting any user flow of that name), create the
instance, execute the build flow once, and return the instance. -/
def build {V : Type} (undef : V) (b : WorkflowBuilderState V) :
    Except String (WorkflowInstance V × List (CallEvt V)) :=
  match hasCircularDependency b.dependencies with
  | none => .error "Maximum call stack size exceeded"
  | some true => .error "Circular dependency detected in workflow"
  | some false =>
    match validateFlows b.steps b.flows with
    | .error e => .error e
    | .ok () =>
      let flows' := setKey b.flows "__build__" (createBuildFlow b.dependencies)
      let w : WorkflowInstance V :=
        { steps := b.steps, dependencies := b.dependencies, flows := flows'
          buildFlowName := "__build__", containers := [], log := [] }
      match execute undef w "__build__" with
      | (.error e, _, _) => .error e
      | (.ok _, w', tr) => .ok (w', tr)

theorem execute_ok_success {V : Type} {undef : V} {w : WorkflowInstance V}
    {f : String} {r : RunResult V} {w' : WorkflowInstance V} {tr : List (CallEvt V)}
    (h : execute undef w f = (.ok r, w', tr)) : r.success = true := by
  unfold execute at h
  cases hf : getKey w.flows f with
  | none => simp only [hf] at h; simp at h
  | some flow =>
    simp only [hf] at h
    cases hs : topologicalSort flow.dependencies with
    | error e => simp only [hs] at h; simp at h
    | ok order =>
      simp only [hs] at h
      rcases hloop : executeLoop undef w flow (f == w.buildFlowName) order
          [] [] w.containers w.log with ⟨exc, conts, log'⟩
      simp only [hloop] at h
      cases exc with
      | error e => simp at h
      | ok p =>
        obtain ⟨c, res⟩ := p
        have h1 : Except.ok (RunResult.mk res true) = Except.ok r :=
          congrArg Prod.fst h
        have h2 := Except.ok.inj h1
        rw [← h2]

theorem executeAsync_ok_success {V : Type} {undef : V} {w : WorkflowInstance V}
    {f : String} {r : RunResult V} {w' : WorkflowInstance V} {tr : List (CallEvt V)}
    (h : executeAsync undef w f = (.ok r, w', tr)) : r.success = true := by
  unfold executeAsync at h
  cases hf : getKey w.flows f with
  | none => simp only [hf] at h; simp at h
  | some flow =>
    simp only [hf] at h
    cases hs : topologicalSort flow.dependencies with
    | error e => simp only [hs] at h; simp at h
    | ok order =>
      simp only [hs] at h
      cases hg : groupStepsByLevel flow order with
      | none => simp only [hg] at h; simp at h
      | some levels =>
        simp only [hg] at h
        rcases hloop : runLevels undef w flow (f == w.buildFlowName) levels
            [] [] w.containers w.log with ⟨exc, conts, log'⟩
        simp only [hloop] at h
        cases exc with
        | error e => simp at h
        | ok p =>
          obtain ⟨c, res⟩ := p
          have h1 : Except.ok (RunResult.mk res true) = Except.ok r :=
            congrArg Prod.fst h
          have h2 := Except.ok.inj h1
          rw [← h2]

/-- C9: whenever `execute` or `executeAsync` returns normally, the
`success` field of the returned value is `true`; no reachable path returns
`success: false`. -/
theorem run_success_always_true {V : Type} (undef : V) (w : WorkflowInstance V)
    (f : String) (r r₂ : RunResult V) (w' w₂ : WorkflowInstance V)
    (tr tr₂ : List (CallEvt V))
    (h : execute undef w f = (.ok r, w', tr))
    (h₂ : executeAsync undef w f = (.ok r₂, w₂, tr₂)) :
    r.success = true ∧ r₂.success = true :=
  ⟨execute_ok_success h, executeAsync_ok_success h₂⟩

/-- A workflow with one user flow containing no steps, used as a witness. -/
def wEmpty : WorkflowInstance Nat :=
  { steps := [], dependencies := [], flows := [("f", ⟨[], []⟩)]
    buildFlowName := "__build__", containers := [], log := [] }

/-- Witness for C9 at a concrete workflow where both runs succeed. -/
theorem run_success_always_true_witness :
    (⟨[], true⟩ : RunResult Nat).success = true ∧
    (⟨[], true⟩ : RunResult Nat).success = true := by
  exact run_success_always_true 0 wEmpty "f" ⟨[], true⟩ ⟨[], true⟩
    wEmpty wEmpty [] [] rfl rfl

/-- The blocking step loop never writes containers when running a user
(non-build) flow. -/
theorem executeLoop_conts_const {V : Type} (undef : V) (w : WorkflowInstance V)
    (flow : FlowDefinition V) :
    ∀ order ctx res conts log,
      (executeLoop undef w flow false order ctx res conts log).2.1 = conts := by
  intro order
  induction order with
  | nil => intro ctx res conts log; rfl
  | cons s rest ih =>
    intro ctx res conts log
    simp only [executeLoop]
    cases hk : getKey flow.steps s with
    | none => simp only [hk]; exact ih ctx res conts log
    | some fsd =>
      simp only [hk, Bool.false_eq_true, if_false]
      cases ho : fsd.action ((getKey conts s).getD undef) ctx with
      | error e => simp only [ho]
      | ok o =>
        cases o with
        | promise p => simp only [ho]
        | val v => simp only [ho]; exact ih _ _ conts _

/-- The concurrent per-level loop never writes containers when running a
user (non-build) flow. -/
theorem runLevel_conts_const {V : Type} (undef : V) (w : WorkflowInstance V)
    (flow : FlowDefinition V) (ctx : List (String × V)) :
    ∀ lvl conts log,
      (runLevel undef w flow false ctx lvl conts log).2.2.1 = conts := by
  intro lvl
  induction lvl with
  | nil => intro conts log; rfl
  | cons s rest ih =>
    intro conts log
    simp only [runLevel]
    cases hk : getKey flow.steps s with
    | none => simp only [hk]; exact ih conts log
    | some fsd =>
      simp only [hk, Bool.false_eq_true, if_false]
      cases ho : awaitOutcome (fsd.action ((getKey conts s).getD undef) ctx) with
      | error e => simp only [ho]; exact ih conts _
      | ok v => simp only [ho]; exact ih conts _

/-- The concurrent level loop never writes containers when running a user
(non-build) flow. -/
theorem runLevels_conts_const {V : Type} (undef : V) (w : WorkflowInstance V)
    (flow : FlowDefinition V) :
    ∀ levels ctx res conts log,
      (runLevels undef w flow false levels ctx res conts log).2.1 = conts := by
  intro levels
  induction levels with
  | nil => intro ctx res conts log; rfl
  | cons lvl rest ih =>
    intro ctx res conts log
    simp only [runLevels]
    rcases hr : runLevel undef w flow false ctx lvl conts log with ⟨items, errs, conts', log'⟩
    have hc : conts' = conts := by
      have := runLevel_conts_const undef w flow ctx lvl conts log
      rw [hr] at this
      exact this
    cases errs with
    | nil => simp only [hr]; rw [ih _ _ conts' _, hc]
    | cons e es => simp only [hr]; exact hc

/-- C4: executing any flow other than the synthesized build flow — via
`execute` or `executeAsync`, succeeding or throwing — leaves every entry of
the container store exactly as it was before the run. -/
theorem nonbuild_run_preserves_containers {V : Type} (undef : V)
    (w : WorkflowInstance V) (flowName : String)
    (h : flowName ≠ w.buildFlowName) :
    (execute undef w flowName).2.1.containers = w.containers ∧
    (executeAsync undef w flowName).2.1.containers = w.containers := by
  have hb : (flowName == w.buildFlowName) = false := beq_eq_false_iff_ne.mpr h
  constructor
  · unfold execute
    cases hf : getKey w.flows flowName with
    | none => simp only [hf]
    | some flow =>
      simp only [hf]
      cases hs : topologicalSort flow.dependencies with
      | error e => simp only [hs]
      | ok order =>
        simp only [hs, hb]
        rcases hloop : executeLoop undef w flow false order [] [] w.containers w.log
          with ⟨exc, conts, log'⟩
        have hc : conts = w.containers := by
          have := executeLoop_conts_const undef w flow order [] [] w.containers w.log
          rw [hloop] at this
          exact this
        cases exc with
        | error e => simp only [hloop]; exact hc
        | ok p => obtain ⟨c, res⟩ := p; simp only [hloop]; exact hc
  · unfold executeAsync
    cases hf : getKey w.flows flowName with
    | none => simp only [hf]
    | some flow =>
      simp only [hf]
      cases hs : topologicalSort flow.dependencies with
      | error e => simp only [hs]
      | ok order =>
        simp only [hs]
        cases hg : groupStepsByLevel flow order with
        | none => simp only [hg]
        | some levels =>
          simp only [hg, hb]
          rcases hloop : runLevels undef w flow false levels [] [] w.containers w.log
            with ⟨exc, conts, log'⟩
          have hc : conts = w.containers := by
            have := runLevels_conts_const undef w flow levels [] [] w.containers w.log
            rw [hloop] at this
            exact this
          cases exc with
          | error e => simp only [hloop]; exact hc
          | ok p => obtain ⟨c, res⟩ := p; simp only [hloop]; exact hc

/-- A flow step whose action throws, for witnesses. -/
def wtStep : FlowStepDef Nat := ⟨fun _ _ => .error "kaboom"⟩

def wtFlow : FlowDefinition Nat := ⟨[("a", wtStep)], [("a", [])]⟩

/-- Witness workflow: a one-step user flow whose action throws, on a
workflow whose container for that step is populated. -/
def wThrow : WorkflowInstance Nat :=
  { steps := [("a", fun _ _ => .ok (.val 1))]
    dependencies := [("a", [])]
    flows := [("boom", wtFlow)]
    buildFlowName := "__build__", containers := [("a", 1)], log := [] }

theorem nonbuild_run_preserves_containers_witness :
    (execute 0 wThrow "boom").2.1.containers = wThrow.containers ∧
    (executeAsync 0 wThrow "boom").2.1.containers = wThrow.containers :=
  nonbuild_run_preserves_containers 0 wThrow "boom" (by decide)

/-- Processing a concatenated order: if the first part of the order runs
through successfully, the loop continues from its final state. -/
theorem executeLoop_append_ok {V : Type} (undef : V) (w : WorkflowInstance V)
    (flow : FlowDefinition V) (b : Bool) :
    ∀ (l₁ l₂ : List String) ctx res conts log ctx' res' conts' log',
      executeLoop undef w flow b l₁ ctx res conts log = (.ok (ctx', res'), conts', log') →
      executeLoop undef w flow b (l₁ ++ l₂) ctx res conts log =
        executeLoop undef w flow b l₂ ctx' res' conts' log' := by
  intro l₁
  induction l₁ with
  | nil =>
    intro l₂ ctx res conts log ctx' res' conts' log' h
    simp only [executeLoop, Prod.mk.injEq, Except.ok.injEq] at h
    obtain ⟨⟨h1, h2⟩, h3, h4⟩ := h
    subst h1; subst h2; subst h3; subst h4
    rfl
  | cons s l₁ ih =>
    intro l₂ ctx res conts log ctx' res' conts' log' h
    simp only [executeLoop, List.cons_append] at h ⊢
    cases hk : getKey flow.steps s with
    | none =>
      simp only [hk] at h ⊢
      exact ih l₂ _ _ _ _ _ _ _ _ h
    | some fsd =>
      simp only [hk] at h ⊢
      cases b with
      | false =>
        simp only [Bool.false_eq_true, if_false] at h ⊢
        cases ho : fsd.action ((getKey conts s).getD undef) ctx with
        | error e => simp only [ho] at h ⊢; simp at h
        | ok o =>
          cases o with
          | promise p => simp only [ho] at h ⊢; simp at h
          | val v =>
            simp only [ho] at h ⊢
            exact ih l₂ _ _ _ _ _ _ _ _ h
      | true =>
        simp only [if_true] at h ⊢
        cases hi : getKey w.steps s with
        | none => simp only [hi] at h ⊢; simp at h
        | some impl =>
          simp only [hi] at h ⊢
          cases ho : impl (implCallCount log s)
              (inputsFor undef conts (depsOf w.dependencies s)) with
          | error e => simp only [ho] at h ⊢; simp at h
          | ok o =>
            cases o with
            | promise p => simp only [ho] at h ⊢; simp at h
            | val v =>
              simp only [ho] at h ⊢
              exact ih l₂ _ _ _ _ _ _ _ _ h

/-- C2: in blocking execution, steps are processed one at a time in the
topologically sorted order; the moment a step implementation or flow action
returns a Promise, the run raises the mode-violation error naming that
step, the Promise result is not committed to the container store, no later
step in the order is examined, and the caller gets no results map. -/
theorem execute_modeViolation {V : Type} (undef : V) (w : WorkflowInstance V)
    (flowName : String) (flow : FlowDefinition V) (pre post : List String)
    (s : String) (fsd : FlowStepDef V) (ctx res conts : List (String × V))
    (log : List (CallEvt V))
    (hflow : getKey w.flows flowName = some flow)
    (horder : topologicalSort flow.dependencies = .ok (pre ++ s :: post))
    (hpre : executeLoop undef w flow (flowName == w.buildFlowName) pre
      [] [] w.containers w.log = (.ok (ctx, res), conts, log))
    (hstep : getKey flow.steps s = some fsd)
    (hpromise :
      (flowName = w.buildFlowName ∧ ∃ impl p, getKey w.steps s = some impl ∧
        impl (implCallCount log s) (inputsFor undef conts (depsOf w.dependencies s))
          = .ok (.promise p)) ∨
      (flowName ≠ w.buildFlowName ∧ ∃ p,
        fsd.action ((getKey conts s).getD undef) ctx = .ok (.promise p))) :
    (∃ e, (execute undef w flowName).1 = .error e ∧
       (e = wrapErr s (buildPromiseMsg s) ∨ e = wrapErr s (actionPromiseMsg s))) ∧
    (execute undef w flowName).2.1.containers = conts ∧
    (∀ post', executeLoop undef w flow (flowName == w.buildFlowName) (s :: post)
        ctx res conts log
      = executeLoop undef w flow (flowName == w.buildFlowName) (s :: post')
        ctx res conts log) := by
  have happ := executeLoop_append_ok undef w flow (flowName == w.buildFlowName)
    pre (s :: post) [] [] w.containers w.log ctx res conts log hpre
  rcases hpromise with ⟨hb, impl, p, hi, hp⟩ | ⟨hb, p, hp⟩
  · have hb' : (flowName == w.buildFlowName) = true := beq_iff_eq.mpr hb
    have hstep1 : ∀ tail, executeLoop undef w flow (flowName == w.buildFlowName)
        (s :: tail) ctx res conts log =
        (.error (wrapErr s (buildPromiseMsg s)), conts,
          log ++ [CallEvt.impl s
            (inputsFor undef conts (depsOf w.dependencies s))
            (.ok (.promise p))]) := by
      intro tail
      simp only [executeLoop, hstep, hb', if_true, hi, hp]
    refine ⟨⟨wrapErr s (buildPromiseMsg s), ?_, Or.inl rfl⟩, ?_, ?_⟩
    · unfold execute
      simp only [hflow, horder, happ, hstep1 post]
    · unfold execute
      simp only [hflow, horder, happ, hstep1 post]
    · intro post'
      rw [hstep1 post, hstep1 post']
  · have hb' : (flowName == w.buildFlowName) = false := beq_eq_false_iff_ne.mpr hb
    have hstep1 : ∀ tail, executeLoop undef w flow (flowName == w.buildFlowName)
        (s :: tail) ctx res conts log =
        (.error (wrapErr s (actionPromiseMsg s)), conts,
          log ++ [CallEvt.action s ((getKey conts s).getD undef) ctx
            (.ok (.promise p))]) := by
      intro tail
      simp only [executeLoop, hstep, hb', Bool.false_eq_true, if_false, hp]
    refine ⟨⟨wrapErr s (actionPromiseMsg s), ?_, Or.inr rfl⟩, ?_, ?_⟩
    · unfold execute
      simp only [hflow, horder, happ, hstep1 post]
    · unfold execute
      simp only [hflow, horder, happ, hstep1 post]
    · intro post'
      rw [hstep1 post, hstep1 post']

/-- A flow step whose action returns a Promise, for the C2 witness. -/
def wpStep : FlowStepDef Nat := ⟨fun _ _ => .ok (.promise (.ok 7))⟩

def wpFlow : FlowDefinition Nat := ⟨[("a", wpStep)], [("a", [])]⟩

def wPromise : WorkflowInstance Nat :=
  { steps := [("a", fun _ _ => .ok (.val 1))]
    dependencies := [("a", [])]
    flows := [("p", wpFlow)]
    buildFlowName := "__build__", containers := [("a", 1)], log := [] }

theorem execute_modeViolation_witness :
    (∃ e, (execute 0 wPromise "p").1 = .error e ∧
       (e = wrapErr "a" (buildPromiseMsg "a") ∨ e = wrapErr "a" (actionPromiseMsg "a"))) ∧
    (execute 0 wPromise "p").2.1.containers = wPromise.containers ∧
    (∀ post', executeLoop 0 wPromise wpFlow ("p" == wPromise.buildFlowName)
        ("a" :: ([] : List String)) [] [] wPromise.containers []
      = executeLoop 0 wPromise wpFlow ("p" == wPromise.buildFlowName)
        ("a" :: post') [] [] wPromise.containers []) :=
  execute_modeViolation 0 wPromise "p" wpFlow [] [] "a" wpStep [] []
    wPromise.containers [] rfl rfl rfl rfl
    (Or.inr ⟨by decide, Except.ok 7, rfl⟩)

/-- Every error collected by a level run is a wrapped step failure naming a
member of that level. -/
theorem runLevel_errs_shape {V : Type} (undef : V) (w : WorkflowInstance V)
    (flow : FlowDefinition V) (b : Bool) (ctx : List (String × V)) :
    ∀ lvl conts log e, e ∈ (runLevel undef w flow b ctx lvl conts log).2.1 →
      ∃ s m, s ∈ lvl ∧ e = wrapErr s m := by
  intro lvl
  induction lvl with
  | nil => intro conts log e h; simp [runLevel] at h
  | cons s rest ih =>
    intro conts log e h
    simp only [runLevel] at h
    cases hk : getKey flow.steps s with
    | none =>
      simp only [hk] at h
      obtain ⟨t, m, ht, hm⟩ := ih conts log e h
      exact ⟨t, m, List.mem_cons_of_mem _ ht, hm⟩
    | some fsd =>
      simp only [hk] at h
      cases b with
      | false =>
        simp only [Bool.false_eq_true, if_false] at h
        cases ho : awaitOutcome (fsd.action ((getKey conts s).getD undef) ctx) with
        | error e₀ =>
          simp only [ho] at h
          rcases List.mem_cons.mp h with hh | hh
          · exact ⟨s, e₀, by simp, hh⟩
          · obtain ⟨t, m, ht, hm⟩ := ih conts _ e hh
            exact ⟨t, m, List.mem_cons_of_mem _ ht, hm⟩
        | ok v =>
          simp only [ho] at h
          obtain ⟨t, m, ht, hm⟩ := ih conts _ e h
          exact ⟨t, m, List.mem_cons_of_mem _ ht, hm⟩
      | true =>
        simp only [if_true] at h
        cases hi : getKey w.steps s with
        | none =>
          simp only [hi] at h
          rcases List.mem_cons.mp h with hh | hh
          · exact ⟨s, implMissingMsg, by simp, hh⟩
          · obtain ⟨t, m, ht, hm⟩ := ih conts log e hh
            exact ⟨t, m, List.mem_cons_of_mem _ ht, hm⟩
        | some impl =>
          simp only [hi] at h
          cases ho : awaitOutcome (impl (implCallCount log s)
              (inputsFor undef conts (depsOf w.dependencies s))) with
          | error e₀ =>
            simp only [ho] at h
            rcases List.mem_cons.mp h with hh | hh
            · exact ⟨s, e₀, by simp, hh⟩
            · obtain ⟨t, m, ht, hm⟩ := ih conts _ e hh
              exact ⟨t, m, List.mem_cons_of_mem _ ht, hm⟩
          | ok v =>
            simp only [ho] at h
            obtain ⟨t, m, ht, hm⟩ := ih _ _ e h
            exact ⟨t, m, List.mem_cons_of_mem _ ht, hm⟩

/-- Processing concatenated level lists: if the first levels run through
successfully, the loop continues from their final state. -/
theorem runLevels_append_ok {V : Type} (undef : V) (w : WorkflowInstance V)
    (flow : FlowDefinition V) (b : Bool) :
    ∀ (L₁ L₂ : List (List String)) ctx res conts log ctx' res' conts' log',
      runLevels undef w flow b L₁ ctx res conts log = (.ok (ctx', res'), conts', log') →
      runLevels undef w flow b (L₁ ++ L₂) ctx res conts log =
        runLevels undef w flow b L₂ ctx' res' conts' log' := by
  intro L₁
  induction L₁ with
  | nil =>
    intro L₂ ctx res conts log ctx' res' conts' log' h
    simp only [runLevels, Prod.mk.injEq, Except.ok.injEq] at h
    obtain ⟨⟨h1, h2⟩, h3, h4⟩ := h
    subst h1; subst h2; subst h3; subst h4
    rfl
  | cons lvl L₁ ih =>
    intro L₂ ctx res conts log ctx' res' conts' log' h
    simp only [runLevels, List.cons_append] at h ⊢
    rcases hr : runLevel undef w flow b ctx lvl conts log with ⟨items, errs, c₁, g₁⟩
    simp only [hr] at h ⊢
    cases errs with
    | nil => exact ih L₂ _ _ _ _ _ _ _ _ h
    | cons e es => simp at h

/-- C3: in every flow run in which a step implementation or action throws
(or rejects), the error surfaced to the caller is the wrap of the original
cause naming the failing step, the remainder of the run is aborted — the
blocking loop never examines any later step of the order, the level loop
never dispatches any later level — and the caller receives no results map. -/
theorem stepFailure_aborts_run {V : Type} (undef : V) (w : WorkflowInstance V)
    (flowName : String) (flow : FlowDefinition V)
    (hflow : getKey w.flows flowName = some flow) :
    (∀ pre post s fsd ctx res conts log e₀,
      topologicalSort flow.dependencies = .ok (pre ++ s :: post) →
      executeLoop undef w flow (flowName == w.buildFlowName) pre
        [] [] w.containers w.log = (.ok (ctx, res), conts, log) →
      getKey flow.steps s = some fsd →
      ((flowName = w.buildFlowName ∧ ∃ impl, getKey w.steps s = some impl ∧
          impl (implCallCount log s) (inputsFor undef conts (depsOf w.dependencies s))
            = .error e₀) ∨
       (flowName ≠ w.buildFlowName ∧
          fsd.action ((getKey conts s).getD undef) ctx = .error e₀)) →
      ((execute undef w flowName).1 = .error (wrapErr s e₀) ∧
       (∀ post', executeLoop undef w flow (flowName == w.buildFlowName)
           (s :: post) ctx res conts log
         = executeLoop undef w flow (flowName == w.buildFlowName)
           (s :: post') ctx res conts log))) ∧
    (∀ order L₁ lvl L₂ ctx res conts log e es,
      topologicalSort flow.dependencies = .ok order →
      groupStepsByLevel flow order = some (L₁ ++ lvl :: L₂) →
      runLevels undef w flow (flowName == w.buildFlowName) L₁
        [] [] w.containers w.log = (.ok (ctx, res), conts, log) →
      (runLevel undef w flow (flowName == w.buildFlowName) ctx lvl conts log).2.1
        = e :: es →
      ((executeAsync undef w flowName).1 = .error e ∧
       (∃ s m, s ∈ lvl ∧ e = wrapErr s m) ∧
       (∀ L₂', runLevels undef w flow (flowName == w.buildFlowName)
           (lvl :: L₂) ctx res conts log
         = runLevels undef w flow (flowName == w.buildFlowName)
           (lvl :: L₂') ctx res conts log))) := by
  constructor
  · intro pre post s fsd ctx res conts log e₀ horder hpre hstep hfail
    have happ := executeLoop_append_ok undef w flow (flowName == w.buildFlowName)
      pre (s :: post) [] [] w.containers w.log ctx res conts log hpre
    rcases hfail with ⟨hb, impl, hi, he⟩ | ⟨hb, he⟩
    · have hb' : (flowName == w.buildFlowName) = true := beq_iff_eq.mpr hb
      have hstep1 : ∀ tail, executeLoop undef w flow (flowName == w.buildFlowName)
          (s :: tail) ctx res conts log =
          (.error (wrapErr s e₀), conts,
            log ++ [CallEvt.impl s
              (inputsFor undef conts (depsOf w.dependencies s)) (.error e₀)]) := by
        intro tail
        simp only [executeLoop, hstep, hb', if_true, hi, he]
      refine ⟨?_, ?_⟩
      · unfold execute
        simp only [hflow, horder, happ, hstep1 post]
      · intro post'
        rw [hstep1 post, hstep1 post']
    · have hb' : (flowName == w.buildFlowName) = false := beq_eq_false_iff_ne.mpr hb
      have hstep1 : ∀ tail, executeLoop undef w flow (flowName == w.buildFlowName)
          (s :: tail) ctx res conts log =
          (.error (wrapErr s e₀), conts,
            log ++ [CallEvt.action s ((getKey conts s).getD undef) ctx
              (.error e₀)]) := by
        intro tail
        simp only [executeLoop, hstep, hb', Bool.false_eq_true, if_false, he]
      refine ⟨?_, ?_⟩
      · unfold execute
        simp only [hflow, horder, happ, hstep1 post]
      · intro post'
        rw [hstep1 post, hstep1 post']
  · intro order L₁ lvl L₂ ctx res conts log e es horder hgroup hL₁ herrs
    have happ := runLevels_append_ok undef w flow (flowName == w.buildFlowName)
      L₁ (lvl :: L₂) [] [] w.containers w.log ctx res conts log hL₁
    rcases hr : runLevel undef w flow (flowName == w.buildFlowName) ctx lvl conts log
      with ⟨items, errs, c₁, g₁⟩
    have herrs' : errs = e :: es := by
      rw [hr] at herrs
      exact herrs
    subst herrs'
    have hstep1 : ∀ tail, runLevels undef w flow (flowName == w.buildFlowName)
        (lvl :: tail) ctx res conts log = (.error e, c₁, g₁) := by
      intro tail
      simp only [runLevels, hr]
    refine ⟨?_, ?_, ?_⟩
    · unfold executeAsync
      simp only [hflow, horder, hgroup, happ, hstep1 L₂]
    · have : e ∈ (runLevel undef w flow (flowName == w.buildFlowName)
          ctx lvl conts log).2.1 := by
        rw [hr]; simp
      obtain ⟨s, m, hs, hm⟩ := runLevel_errs_shape undef w flow _ ctx lvl conts log e this
      exact ⟨s, m, hs, hm⟩
    · intro L₂'
      rw [hstep1 L₂, hstep1 L₂']

theorem stepFailure_aborts_run_witness :
    ((execute 0 wThrow "boom").1 = .error (wrapErr "a" "kaboom") ∧
     (∀ post', executeLoop 0 wThrow wtFlow ("boom" == wThrow.buildFlowName)
         ("a" :: ([] : List String)) [] [] wThrow.containers []
       = executeLoop 0 wThrow wtFlow ("boom" == wThrow.buildFlowName)
         ("a" :: post') [] [] wThrow.containers [])) ∧
    ((executeAsync 0 wThrow "boom").1 = .error (wrapErr "a" "kaboom") ∧
     (∃ s m, s ∈ ["a"] ∧ wrapErr "a" "kaboom" = wrapErr s m) ∧
     (∀ L₂', runLevels 0 wThrow wtFlow ("boom" == wThrow.buildFlowName)
         (["a"] :: ([] : List (List String))) [] [] wThrow.containers []
       = runLevels 0 wThrow wtFlow ("boom" == wThrow.buildFlowName)
         (["a"] :: L₂') [] [] wThrow.containers [])) := by
  have h := stepFailure_aborts_run 0 wThrow "boom" wtFlow rfl
  exact ⟨h.1 [] [] "a" wtStep [] [] wThrow.containers [] "kaboom" rfl rfl rfl
           (Or.inr ⟨by decide, rfl⟩),
         h.2 ["a"] [] ["a"] [] [] [] wThrow.containers []
           (wrapErr "a" "kaboom") [] rfl rfl rfl rfl⟩

/-- The two-node cycle `a → b → a`. -/
def cycGraph : Graph := [("a", ["b"]), ("b", ["a"])]

/-- C8: for a dependency graph containing the two-node cycle a → b → a,
`build()` raises the cycle error before materializing anything: whatever
the step implementations and user flows are, no workflow instance is
produced and the container store is never created. -/
theorem cyclicBuild_raises_cycleError {V : Type} (undef : V)
    (steps : List (String × Impl V)) (flows : List (String × FlowDefinition V)) :
    hasCircularDependency cycGraph = some true ∧
    build undef ⟨steps, cycGraph, flows⟩ =
      .error "Circular dependency detected in workflow" :=
  ⟨rfl, rfl⟩

/-- The step a trace event belongs to. -/
def evtStep {V : Type} : CallEvt V → String
  | .impl s _ _ => s
  | .action s _ _ _ => s

theorem getKey_setKey_self {β : Type} (m : List (String × β)) (k : String) (v : β) :
    getKey (setKey m k v) k = some v := by
  induction m with
  | nil => simp [setKey, getKey]
  | cons p rest ih =>
    obtain ⟨k', v'⟩ := p
    by_cases h : k' = k
    · subst h
      simp [setKey, getKey]
    · simp only [setKey, if_neg h, getKey]
      exact ih

theorem getKey_setKey_ne {β : Type} (m : List (String × β)) (k k₂ : String) (v : β)
    (h : k₂ ≠ k) : getKey (setKey m k v) k₂ = getKey m k₂ := by
  induction m with
  | nil =>
    simp only [setKey, getKey]
    rw [if_neg (fun hc => h hc.symm)]
  | cons p rest ih =>
    obtain ⟨k', v'⟩ := p
    by_cases hk : k' = k
    · subst hk
      simp only [setKey, if_pos rfl, getKey]
      rw [if_neg (fun hc => h hc.symm), if_neg (fun hc => h hc.symm)]
    · simp only [setKey, if_neg hk, getKey]
      by_cases hk2 : k' = k₂
      · rw [if_pos hk2, if_pos hk2]
      · rw [if_neg hk2, if_neg hk2]
        exact ih

/-- Effects of a successful blocking build run: each step of the order that
belongs to the build flow has its real implementation invoked, in exactly
the order's sequence, and its fresh result overwrites its container entry;
container entries of steps outside the order are untouched. -/
theorem executeLoop_build_effects {V : Type} (undef : V) (w : WorkflowInstance V)
    (flow : FlowDefinition V) :
    ∀ (order : List String) ctx res conts log ctx' res' conts' log',
      executeLoop undef w flow true order ctx res conts log
        = (.ok (ctx', res'), conts', log') →
      order.Nodup →
      ∃ tr, log' = log ++ tr ∧
        tr.map evtStep = order.filter (fun s => (getKey flow.steps s).isSome) ∧
        (∀ s ∈ order, (getKey flow.steps s).isSome = true →
          ∃ ins v, CallEvt.impl s ins (.ok (.val v)) ∈ tr ∧
            getKey conts' s = some v) ∧
        (∀ k, k ∉ order → getKey conts' k = getKey conts k) := by
  intro order
  induction order with
  | nil =>
    intro ctx res conts log ctx' res' conts' log' h _
    simp only [executeLoop, Prod.mk.injEq, Except.ok.injEq] at h
    obtain ⟨⟨h1, h2⟩, h3, h4⟩ := h
    subst h3; subst h4
    exact ⟨[], by simp, by simp, by simp, fun k _ => rfl⟩
  | cons s rest ih =>
    intro ctx res conts log ctx' res' conts' log' h hnd
    obtain ⟨hs_nr, hnd'⟩ := List.nodup_cons.mp hnd
    simp only [executeLoop] at h
    cases hk : getKey flow.steps s with
    | none =>
      simp only [hk] at h
      obtain ⟨tr, h1, h2, h3, h4⟩ := ih _ _ _ _ _ _ _ _ h hnd'
      refine ⟨tr, h1, ?_, ?_, ?_⟩
      · rw [h2, List.filter_cons]
        simp [hk]
      · intro t ht hsome
        rcases List.mem_cons.mp ht with hh | hh
        · subst hh; rw [hk] at hsome; simp at hsome
        · exact h3 t hh hsome
      · intro k hks
        exact h4 k (fun hc => hks (List.mem_cons_of_mem _ hc))
    | some fsd =>
      simp only [hk, if_true] at h
      cases hi : getKey w.steps s with
      | none => simp only [hi] at h; simp at h
      | some impl =>
        simp only [hi] at h
        cases ho : impl (implCallCount log s)
            (inputsFor undef conts (depsOf w.dependencies s)) with
        | error e => simp only [ho] at h; simp at h
        | ok o =>
          cases o with
          | promise p => simp only [ho] at h; simp at h
          | val v =>
            simp only [ho] at h
            obtain ⟨tr, h1, h2, h3, h4⟩ := ih _ _ _ _ _ _ _ _ h hnd'
            refine ⟨CallEvt.impl s (inputsFor undef conts (depsOf w.dependencies s))
              (.ok (.val v)) :: tr, ?_, ?_, ?_, ?_⟩
            · rw [h1]
              simp
            · rw [List.map_cons, h2, List.filter_cons]
              simp [hk, evtStep]
            · intro t ht hsome
              rcases List.mem_cons.mp ht with rfl | hh
              · exact ⟨inputsFor undef conts (depsOf w.dependencies t), v,
                  List.mem_cons_self _ _,
                  by rw [h4 t hs_nr, getKey_setKey_self]⟩
              · obtain ⟨ins, v', hmem, hget⟩ := h3 t hh hsome
                exact ⟨ins, v', List.mem_cons_of_mem _ hmem, hget⟩
            · intro k hks
              rw [h4 k (fun hc => hks (List.mem_cons_of_mem _ hc)),
                getKey_setKey_ne _ _ _ _ (fun hc => hks (by simp [hc]))]

/-- A builder whose single step returns one more than its own prior
invocation count — a counter-incrementing implementation closure. -/
def counterB : WorkflowBuilderState Nat :=
  { steps := [("counter", fun k _ => .ok (.val (k+1)))]
    dependencies := [("counter", [])]
    flows := [] }

/-- C7: `refresh()` re-runs the synthesized build flow — `refresh` and
`execute(buildFlowName)` produce the same instance and trace; on a
successful run every step of the build flow has its real implementation
invoked again, in topological order, and the fresh result overwrites that
step's container entry; concretely, a counter-incrementing step reads 1
after the initial build and 2 after one `refresh()`. -/
theorem refresh_rebuilds {V : Type} (undef : V) (w : WorkflowInstance V)
    (bf : FlowDefinition V) (order : List String)
    (ctx res conts : List (String × V)) (log' : List (CallEvt V))
    (hflow : getKey w.flows w.buildFlowName = some bf)
    (horder : topologicalSort bf.dependencies = .ok order)
    (hrun : executeLoop undef w bf true order [] [] w.containers w.log
      = (.ok (ctx, res), conts, log')) :
    ((refresh undef w).2 = (execute undef w w.buildFlowName).2) ∧
    ((execute undef w w.buildFlowName).1 = .ok ⟨res, true⟩ ∧
     (refresh undef w).2.1.containers = conts ∧
     ∃ tr, log' = w.log ++ tr ∧ (refresh undef w).2.2 = tr ∧
       tr.map evtStep = order.filter (fun s => (getKey bf.steps s).isSome) ∧
       (∀ s ∈ order, (getKey bf.steps s).isSome = true →
         ∃ ins v, CallEvt.impl s ins (.ok (.val v)) ∈ tr ∧
           getKey conts s = some v)) ∧
    (∃ w₁ tr₁, build 0 counterB = .ok (w₁, tr₁) ∧
       getKey w₁.containers "counter" = some 1 ∧
       getKey (refresh 0 w₁).2.1.containers "counter" = some 2) := by
  have hb : (w.buildFlowName == w.buildFlowName) = true := beq_self_eq_true _
  have hexec : execute undef w w.buildFlowName =
      (.ok ⟨res, true⟩, { w with containers := conts, log := log' },
        log'.drop w.log.length) := by
    unfold execute
    simp only [hflow, horder, hb, hrun]
  have hrefresh : refresh undef w =
      (.ok (), { w with containers := conts, log := log' },
        log'.drop w.log.length) := by
    unfold refresh
    rw [hexec]
  obtain ⟨nd, _, _⟩ := topologicalSort_sound horder
  obtain ⟨tr, h1, h2, h3, _⟩ := executeLoop_build_effects undef w bf order
    [] [] w.containers w.log ctx res conts log' hrun nd
  refine ⟨by rw [hrefresh, hexec], ⟨by rw [hexec], by rw [hrefresh], tr, h1, ?_, h2, h3⟩, ?_⟩
  · rw [hrefresh, h1]
    simp only
    exact List.drop_left _ _
  · exact ⟨_, _, rfl, rfl, rfl⟩

/-- The synthesized build flow of the counter workflow. -/
def cbF : FlowDefinition Nat := createBuildFlow [("counter", [])]

/-- The workflow state reached by building `counterB`, spelled out. -/
def wC : WorkflowInstance Nat :=
  { steps := [("counter", fun k _ => .ok (.val (k+1)))]
    dependencies := [("counter", [])]
    flows := [("__build__", cbF)]
    buildFlowName := "__build__", containers := [("counter", 1)]
    log := [CallEvt.impl "counter" [] (.ok (.val 1))] }

theorem refresh_rebuilds_witness :
    ((refresh 0 wC).2 = (execute 0 wC wC.buildFlowName).2) ∧
    ((execute 0 wC wC.buildFlowName).1 = .ok ⟨[("counter", 2)], true⟩ ∧
     (refresh 0 wC).2.1.containers = [("counter", 2)] ∧
     ∃ tr, wC.log ++ [CallEvt.impl "counter" [] (.ok (.val 2))] = wC.log ++ tr ∧
       (refresh 0 wC).2.2 = tr ∧
       tr.map evtStep = ["counter"].filter
         (fun s => (getKey cbF.steps s).isSome) ∧
       (∀ s ∈ ["counter"],
         (getKey cbF.steps s).isSome = true →
         ∃ ins v, CallEvt.impl s ins (.ok (.val v)) ∈ tr ∧
           getKey [("counter", 2)] s = some v)) ∧
    (∃ w₁ tr₁, build 0 counterB = .ok (w₁, tr₁) ∧
       getKey w₁.containers "counter" = some 1 ∧
       getKey (refresh 0 w₁).2.1.containers "counter" = some 2) :=
  refresh_rebuilds 0 wC cbF ["counter"]
    [("counter", 2)] [("counter", 2)] [("counter", 2)]
    (wC.log ++ [CallEvt.impl "counter" [] (.ok (.val 2))])
    rfl rfl rfl

/-- `execute` only ever rewrites `containers` and the ghost log; the step
registry, graphs, flow registry and build-flow name are untouched. -/
theorem execute_shape {V : Type} (undef : V) (w : WorkflowInstance V) (f : String) :
    (execute undef w f).2.1.flows = w.flows ∧
    (execute undef w f).2.1.buildFlowName = w.buildFlowName ∧
    (execute undef w f).2.1.steps = w.steps ∧
    (execute undef w f).2.1.dependencies = w.dependencies := by
  unfold execute
  cases hf : getKey w.flows f with
  | none => exact ⟨rfl, rfl, rfl, rfl⟩
  | some flow =>
    simp only
    cases hs : topologicalSort flow.dependencies with
    | error e => exact ⟨rfl, rfl, rfl, rfl⟩
    | ok order =>
      simp only
      rcases executeLoop undef w flow (f == w.buildFlowName) order
        [] [] w.containers w.log with ⟨exc, conts, log'⟩
      cases exc with
      | error e => exact ⟨rfl, rfl, rfl, rfl⟩
      | ok p => obtain ⟨c, r⟩ := p; exact ⟨rfl, rfl, rfl, rfl⟩

theorem addToLevel_nil_flatten_count : ∀ (l : Nat) (s x : String),
    (addToLevel [] l s).flatten.count x = if x = s then 1 else 0 := by
  intro l
  induction l with
  | zero =>
    intro s x
    simp only [addToLevel, List.flatten]
    by_cases hx : x = s
    · subst hx; simp
    · simp [List.count_singleton, hx]
  | succ l ih =>
    intro s x
    simp only [addToLevel, List.flatten_cons, List.nil_append]
    exact ih s x

theorem addToLevel_flatten_count : ∀ (acc : List (List String)) (l : Nat) (s x : String),
    (addToLevel acc l s).flatten.count x
      = acc.flatten.count x + (if x = s then 1 else 0) := by
  intro acc
  induction acc with
  | nil =>
    intro l s x
    rw [addToLevel_nil_flatten_count]
    simp
  | cons g gs ih =>
    intro l s x
    cases l with
    | zero =>
      simp only [addToLevel, List.flatten_cons, List.count_append]
      by_cases hx : x = s
      · subst hx; simp [List.count_append]; omega
      · simp [List.count_append, List.count_singleton, hx]
    | succ l =>
      simp only [addToLevel, List.flatten_cons, List.count_append]
      rw [ih]
      omega

theorem groupLoop_flatten_count (g : Graph) (F : Nat) :
    ∀ (order : List String) (acc levels : List (List String)),
      groupLoop g F order acc = some levels →
      ∀ x, levels.flatten.count x = acc.flatten.count x + order.count x := by
  intro order
  induction order with
  | nil =>
    intro acc levels h x
    simp only [groupLoop, Option.some.injEq] at h
    subst h
    simp
  | cons s rest ih =>
    intro acc levels h x
    simp only [groupLoop] at h
    cases hl : getStepLevel g F s with
    | none => rw [hl] at h; simp at h
    | some l =>
      rw [hl] at h
      rw [ih (addToLevel acc l s) levels h x, addToLevel_flatten_count]
      rw [List.count_cons]
      by_cases hx : x = s
      · subst hx; simp; omega
      · have hsx : ¬s = x := fun hc => hx hc.symm
        simp [hx, hsx]

/-- The level groups of a duplicate-free order are collectively
duplicate-free. -/
theorem groupLoop_flatten_nodup {g : Graph} {F : Nat} {order : List String}
    {levels : List (List String)} (h : groupLoop g F order [] = some levels)
    (hnd : order.Nodup) : levels.flatten.Nodup := by
  rw [List.nodup_iff_count_le_one]
  intro x
  have hc := groupLoop_flatten_count g F order [] levels h x
  simp only [List.flatten_nil, List.count_nil, Nat.zero_add] at hc
  rw [hc]
  exact List.nodup_iff_count_le_one.mp hnd x

/-- Effects of one fully successful `executeAsync` build level: every level
member that belongs to the flow has its real implementation invoked and the
awaited fresh result overwrites its container entry; container entries of
steps outside the level are untouched. -/
theorem runLevel_build_effects {V : Type} (undef : V) (w : WorkflowInstance V)
    (flow : FlowDefinition V) (ctx : List (String × V)) :
    ∀ (lvl : List String) (conts : List (String × V)) (log : List (CallEvt V))
      (items conts' : List (String × V)) (log' : List (CallEvt V)),
      runLevel undef w flow true ctx lvl conts log = (items, [], conts', log') →
      lvl.Nodup →
      ∃ Δ, log' = log ++ Δ ∧
        (∀ s ∈ lvl, (getKey flow.steps s).isSome = true →
          ∃ ins o v, CallEvt.impl s ins o ∈ Δ ∧ awaitOutcome o = .ok v ∧
            getKey conts' s = some v) ∧
        (∀ k, k ∉ lvl → getKey conts' k = getKey conts k) := by
  intro lvl
  induction lvl with
  | nil =>
    intro conts log items conts' log' h _
    simp only [runLevel, Prod.mk.injEq] at h
    obtain ⟨h1, -, h3, h4⟩ := h
    subst h3; subst h4
    exact ⟨[], by simp, by simp, fun k _ => rfl⟩
  | cons s rest ih =>
    intro conts log items conts' log' h hnd
    obtain ⟨hs_nr, hnd'⟩ := List.nodup_cons.mp hnd
    simp only [runLevel] at h
    cases hk : getKey flow.steps s with
    | none =>
      simp only [hk] at h
      obtain ⟨Δ, h1, h2, h3⟩ := ih _ _ _ _ _ h hnd'
      refine ⟨Δ, h1, ?_, ?_⟩
      · intro t ht hsome
        rcases List.mem_cons.mp ht with hh | hh
        · subst hh; rw [hk] at hsome; simp at hsome
        · exact h2 t hh hsome
      · intro k hks
        exact h3 k (fun hc => hks (List.mem_cons_of_mem _ hc))
    | some fsd =>
      simp only [hk, if_true] at h
      cases hi : getKey w.steps s with
      | none =>
        simp only [hi] at h
        rcases hrec : runLevel undef w flow true ctx rest conts log with
          ⟨items₁, errs₁, conts₁, logr⟩
        rw [hrec] at h
        simp only [Prod.mk.injEq] at h
        obtain ⟨-, h2, -, -⟩ := h
        exact (List.cons_ne_nil _ _ h2).elim
      | some impl =>
        simp only [hi] at h
        cases ho : awaitOutcome (impl (implCallCount log s)
            (inputsFor undef conts (depsOf w.dependencies s))) with
        | error e₀ =>
          simp only [ho] at h
          rcases hrec : runLevel undef w flow true ctx rest conts
              (log ++ [CallEvt.impl s
                (inputsFor undef conts (depsOf w.dependencies s))
                (impl (implCallCount log s)
                  (inputsFor undef conts (depsOf w.dependencies s)))]) with
            ⟨items₁, errs₁, conts₁, logr⟩
          rw [hrec] at h
          simp only [Prod.mk.injEq] at h
          obtain ⟨-, h2, -, -⟩ := h
          exact (List.cons_ne_nil _ _ h2).elim
        | ok v =>
          simp only [ho] at h
          rcases hrec : runLevel undef w flow true ctx rest (setKey conts s v)
              (log ++ [CallEvt.impl s
                (inputsFor undef conts (depsOf w.dependencies s))
                (impl (implCallCount log s)
                  (inputsFor undef conts (depsOf w.dependencies s)))]) with
            ⟨items₁, errs₁, conts₁, logr⟩
          rw [hrec] at h
          simp only [Prod.mk.injEq] at h
          obtain ⟨h1, h2, h3, h4⟩ := h
          subst h1; subst h3; subst h4
          subst h2
          obtain ⟨Δ', hlog', heff', hframe'⟩ := ih _ _ _ _ _ hrec hnd'
          refine ⟨CallEvt.impl s (inputsFor undef conts (depsOf w.dependencies s))
              (impl (implCallCount log s)
                (inputsFor undef conts (depsOf w.dependencies s))) :: Δ',
            ?_, ?_, ?_⟩
          · rw [hlog']; simp
          · intro t ht hsome
            rcases List.mem_cons.mp ht with rfl | hh
            · refine ⟨inputsFor undef conts (depsOf w.dependencies t),
                impl (implCallCount log t)
                  (inputsFor undef conts (depsOf w.dependencies t)), v,
                List.mem_cons_self _ _, ho, ?_⟩
              rw [hframe' t hs_nr, getKey_setKey_self]
            · obtain ⟨ins, o, v', hmem, hoo, hget⟩ := heff' t hh hsome
              exact ⟨ins, o, v', List.mem_cons_of_mem _ hmem, hoo, hget⟩
          · intro k hks
            rw [hframe' k (fun hc => hks (List.mem_cons_of_mem _ hc)),
              getKey_setKey_ne _ _ _ _ (fun hc => hks (by simp [hc]))]

/-- Effects of a successful `executeAsync` build run: every step of the
level decomposition that belongs to the build flow has its real
implementation invoked and the awaited fresh result overwrites its
container entry; container entries of steps outside the levels are
untouched. -/
theorem runLevels_build_effects {V : Type} (undef : V) (w : WorkflowInstance V)
    (flow : FlowDefinition V) :
    ∀ (lvls : List (List String)) (ctx res conts : List (String × V))
      (log : List (CallEvt V)) (ctx' res' conts' : List (String × V))
      (log' : List (CallEvt V)),
      runLevels undef w flow true lvls ctx res conts log
        = (.ok (ctx', res'), conts', log') →
      lvls.flatten.Nodup →
      ∃ Δ, log' = log ++ Δ ∧
        (∀ s ∈ lvls.flatten, (getKey flow.steps s).isSome = true →
          ∃ ins o v, CallEvt.impl s ins o ∈ Δ ∧ awaitOutcome o = .ok v ∧
            getKey conts' s = some v) ∧
        (∀ k, k ∉ lvls.flatten → getKey conts' k = getKey conts k) := by
  intro lvls
  induction lvls with
  | nil =>
    intro ctx res conts log ctx' res' conts' log' h _
    simp only [runLevels, Prod.mk.injEq, Except.ok.injEq] at h
    obtain ⟨-, h3, h4⟩ := h
    subst h3; subst h4
    exact ⟨[], by simp, by simp, fun k _ => rfl⟩
  | cons lvl rest ih =>
    intro ctx res conts log ctx' res' conts' log' h hnd
    rw [List.flatten_cons] at hnd
    obtain ⟨hndlvl, hndrest, hdisj⟩ := List.nodup_append.mp hnd
    simp only [runLevels] at h
    rcases hrl : runLevel undef w flow true ctx lvl conts log with
      ⟨items, errs, conts₁, log₁⟩
    cases errs with
    | cons e₀ es =>
      simp only [hrl] at h
      simp at h
    | nil =>
      simp only [hrl] at h
      obtain ⟨Δ₁, hlog₁, heff₁, hframe₁⟩ :=
        runLevel_build_effects undef w flow ctx lvl conts log items conts₁ log₁
          hrl hndlvl
      obtain ⟨Δ₂, hlog₂, heff₂, hframe₂⟩ := ih _ _ _ _ _ _ _ _ h hndrest
      refine ⟨Δ₁ ++ Δ₂, ?_, ?_, ?_⟩
      · rw [hlog₂, hlog₁, List.append_assoc]
      · intro t ht hsome
        rw [List.flatten_cons] at ht
        rcases List.mem_append.mp ht with hh | hh
        · obtain ⟨ins, o, v, hmem, hoo, hget⟩ := heff₁ t hh hsome
          refine ⟨ins, o, v, List.mem_append_left _ hmem, hoo, ?_⟩
          rw [hframe₂ t (fun hc => hdisj hh hc)]
          exact hget
        · obtain ⟨ins, o, v, hmem, hoo, hget⟩ := heff₂ t hh hsome
          exact ⟨ins, o, v, List.mem_append_right _ hmem, hoo, hget⟩
      · intro k hks
        rw [List.flatten_cons] at hks
        rw [hframe₂ k (fun hc => hks (List.mem_append_right _ hc)),
          hframe₁ k (fun hc => hks (List.mem_append_left _ hc))]

/-- C10: the synthesized build flow lives in the ordinary flow registry
under the fixed name `"__build__"`: declaring a user flow of that name
before `build()` raises no duplicate-flow error, `build()` silently
replaces it with the synthesized flow, `execute("__build__")` and
`executeAsync("__build__")` are accepted and identical to executing the
build-flow name — behaving like `refresh` — and a successful such run, in
either mode, re-invokes every step's real implementation and overwrites
every container value. -/
theorem buildFlow_registry_spec {V : Type} (undef : V)
    (b : WorkflowBuilderState V) (w : WorkflowInstance V) (tr : List (CallEvt V)) :
    (∀ bld : WorkflowBuilderState V, getKey bld.flows "__build__" = none →
       defineFlow bld "__build__" = .ok ()) ∧
    (build undef b = .ok (w, tr) →
       getKey w.flows "__build__"
         = some (createBuildFlow b.dependencies : FlowDefinition V) ∧
       w.buildFlowName = "__build__" ∧
       execute undef w "__build__" = execute undef w w.buildFlowName ∧
       executeAsync undef w "__build__" = executeAsync undef w w.buildFlowName ∧
       (refresh undef w).2 = (execute undef w "__build__").2 ∧
       (∀ order ctx res conts log',
         topologicalSort
           (createBuildFlow b.dependencies : FlowDefinition V).dependencies
           = .ok order →
         executeLoop undef w (createBuildFlow b.dependencies) true order
           [] [] w.containers w.log = (.ok (ctx, res), conts, log') →
         (execute undef w "__build__").2.1.containers = conts ∧
         ∃ tr', log' = w.log ++ tr' ∧
           (∀ s ∈ order,
             (getKey (createBuildFlow b.dependencies : FlowDefinition V).steps
               s).isSome = true →
             ∃ ins v, CallEvt.impl s ins (.ok (.val v)) ∈ tr' ∧
               getKey conts s = some v)) ∧
       (∀ order levels ctx res conts log',
         topologicalSort
           (createBuildFlow b.dependencies : FlowDefinition V).dependencies
           = .ok order →
         groupStepsByLevel (createBuildFlow b.dependencies : FlowDefinition V)
           order = some levels →
         runLevels undef w (createBuildFlow b.dependencies) true levels
           [] [] w.containers w.log = (.ok (ctx, res), conts, log') →
         (executeAsync undef w "__build__").2.1.containers = conts ∧
         ∃ tr', log' = w.log ++ tr' ∧
           (∀ s ∈ levels.flatten,
             (getKey (createBuildFlow b.dependencies : FlowDefinition V).steps
               s).isSome = true →
             ∃ ins o v, CallEvt.impl s ins o ∈ tr' ∧ awaitOutcome o = .ok v ∧
               getKey conts s = some v))) := by
  constructor
  · intro bld h0
    unfold defineFlow
    rw [h0]
    rfl
  · intro hbuild
    unfold build at hbuild
    cases hc : hasCircularDependency b.dependencies with
    | none => simp [hc] at hbuild
    | some bb =>
      cases bb with
      | true => simp [hc] at hbuild
      | false =>
        cases hv : validateFlows b.steps b.flows with
        | error e => simp [hc, hv] at hbuild
        | ok u =>
          cases u
          simp only [hc, hv] at hbuild
          rcases hx : execute undef
              ({ steps := b.steps, dependencies := b.dependencies,
                 flows := setKey b.flows "__build__" (createBuildFlow b.dependencies),
                 buildFlowName := "__build__", containers := [], log := [] } :
                WorkflowInstance V) "__build__" with ⟨exc, w', tr'⟩
          rw [hx] at hbuild
          cases exc with
          | error e => simp at hbuild
          | ok r =>
            simp only [Prod.mk.injEq, Except.ok.injEq] at hbuild
            obtain ⟨hw, htr⟩ := hbuild
            subst hw; subst htr
            obtain ⟨hfl, hbn, _, _⟩ := execute_shape undef
              ({ steps := b.steps, dependencies := b.dependencies,
                 flows := setKey b.flows "__build__" (createBuildFlow b.dependencies),
                 buildFlowName := "__build__", containers := [], log := [] } :
                WorkflowInstance V) "__build__"
            rw [hx] at hfl hbn
            simp only at hfl hbn
            have hreg : getKey w'.flows "__build__"
                = some (createBuildFlow b.dependencies : FlowDefinition V) := by
              rw [hfl, getKey_setKey_self]
            have hname : w'.buildFlowName = "__build__" := hbn
            have hexeq : execute undef w' "__build__"
                = execute undef w' w'.buildFlowName := by rw [hname]
            have hb' : ("__build__" == w'.buildFlowName) = true := by
              rw [hname]
              rfl
            refine ⟨hreg, hname, hexeq, by rw [hname], ?_, ?_, ?_⟩
            · unfold refresh
              rw [← hexeq]
              rcases execute undef w' "__build__" with ⟨exc₂, w₂, tr₂⟩
              cases exc₂ with
              | error e => rfl
              | ok r₂ => rfl
            · intro order ctx res conts log' horder hrun
              obtain ⟨nd, _, _⟩ := topologicalSort_sound horder
              obtain ⟨tr₀, h1, _, h3, _⟩ := executeLoop_build_effects undef w'
                (createBuildFlow b.dependencies) order [] [] w'.containers w'.log
                ctx res conts log' hrun nd
              have hreg' : getKey w'.flows "__build__"
                  = some (createBuildFlow b.dependencies : FlowDefinition V) := hreg
              have hexec2 : execute undef w' "__build__" =
                  (.ok ⟨res, true⟩, { w' with containers := conts, log := log' },
                    log'.drop w'.log.length) := by
                unfold execute
                simp only [hreg', horder, hb', hrun]
              refine ⟨by rw [hexec2], tr₀, h1, h3⟩
            · intro order levels ctx res conts log' horder hlevels hrun
              obtain ⟨nd, _, _⟩ := topologicalSort_sound horder
              have hgl : groupLoop
                  (createBuildFlow b.dependencies : FlowDefinition V).dependencies
                  (fuelOf
                    (createBuildFlow b.dependencies :
                      FlowDefinition V).dependencies)
                  order [] = some levels := hlevels
              obtain ⟨tr₀, h1, heff, _⟩ := runLevels_build_effects undef w'
                (createBuildFlow b.dependencies) levels [] [] w'.containers
                w'.log ctx res conts log' hrun
                (groupLoop_flatten_nodup hgl nd)
              have hreg' : getKey w'.flows "__build__"
                  = some (createBuildFlow b.dependencies : FlowDefinition V) := hreg
              have hexecA : executeAsync undef w' "__build__" =
                  (.ok ⟨res, true⟩, { w' with containers := conts, log := log' },
                    log'.drop w'.log.length) := by
                unfold executeAsync
                simp only [hreg', horder, hlevels, hb', hrun]
              refine ⟨by rw [hexecA], tr₀, h1, heff⟩

/-- A user flow named `"__build__"`, declared before build. -/
def ubFlow : FlowDefinition Nat := ⟨[], []⟩

def b10 : WorkflowBuilderState Nat :=
  { steps := [("a", fun _ _ => .ok (.val 5))]
    dependencies := [("a", [])]
    flows := [("__build__", ubFlow)] }

/-- The instance produced by building `b10`: the user's `"__build__"` entry
has been silently replaced by the synthesized build flow. -/
def w10 : WorkflowInstance Nat :=
  { steps := [("a", fun _ _ => .ok (.val 5))]
    dependencies := [("a", [])]
    flows := [("__build__", (createBuildFlow [("a", [])] : FlowDefinition Nat))]
    buildFlowName := "__build__", containers := [("a", 5)]
    log := [CallEvt.impl "a" [] (.ok (.val 5))] }

theorem buildFlow_registry_spec_witness :
    defineFlow (⟨[], [], []⟩ : WorkflowBuilderState Nat) "__build__" = .ok () ∧
    getKey w10.flows "__build__"
      = some (createBuildFlow b10.dependencies : FlowDefinition Nat) ∧
    w10.buildFlowName = "__build__" ∧
    execute 0 w10 "__build__" = execute 0 w10 w10.buildFlowName ∧
    executeAsync 0 w10 "__build__" = executeAsync 0 w10 w10.buildFlowName ∧
    (refresh 0 w10).2 = (execute 0 w10 "__build__").2 ∧
    ((execute 0 w10 "__build__").2.1.containers = [("a", 5)] ∧
     ∃ tr', w10.log ++ [CallEvt.impl "a" [] (.ok (.val 5))] = w10.log ++ tr' ∧
       (∀ s ∈ ["a"],
         (getKey (createBuildFlow b10.dependencies : FlowDefinition Nat).steps
           s).isSome = true →
         ∃ ins v, CallEvt.impl s ins (.ok (.val v)) ∈ tr' ∧
           getKey [("a", 5)] s = some v)) ∧
    ((executeAsync 0 w10 "__build__").2.1.containers = [("a", 5)] ∧
     ∃ tr', w10.log ++ [CallEvt.impl "a" [] (.ok (.val 5))] = w10.log ++ tr' ∧
       (∀ s ∈ ["a"],
         (getKey (createBuildFlow b10.dependencies : FlowDefinition Nat).steps
           s).isSome = true →
         ∃ ins o v, CallEvt.impl s ins o ∈ tr' ∧ awaitOutcome o = .ok v ∧
           getKey [("a", 5)] s = some v)) := by
  have h := buildFlow_registry_spec 0 b10 w10 [CallEvt.impl "a" [] (.ok (.val 5))]
  have hb := h.2 rfl
  exact ⟨h.1 ⟨[], [], []⟩ rfl, hb.1, hb.2.1, hb.2.2.1, hb.2.2.2.1,
    hb.2.2.2.2.1,
    hb.2.2.2.2.2.1 ["a"] [("a", 5)] [("a", 5)] [("a", 5)]
      (w10.log ++ [CallEvt.impl "a" [] (.ok (.val 5))]) rfl rfl,
    hb.2.2.2.2.2.2 ["a"] [["a"]] [("a", 5)] [("a", 5)] [("a", 5)]
      (w10.log ++ [CallEvt.impl "a" [] (.ok (.val 5))]) rfl rfl rfl⟩

theorem maxLevels_elems : ∀ (os : List (Option Nat)) (m : Nat),
    maxLevels os = some m → ∀ o ∈ os, ∃ l, o = some l ∧ l ≤ m := by
  intro os
  induction os with
  | nil => intro m _ o ho; simp at ho
  | cons o os ih =>
    intro m h o' ho'
    cases o with
    | none => simp [maxLevels] at h
    | some l =>
      simp only [maxLevels] at h
      cases hm : maxLevels os with
      | none => rw [hm] at h; simp at h
      | some m' =>
        rw [hm] at h
        simp only [Option.some.injEq] at h
        rcases List.mem_cons.mp ho' with rfl | hmem
        · exact ⟨l, rfl, by omega⟩
        · obtain ⟨l', hl', hle⟩ := ih m' hm o' hmem
          refine ⟨l', hl', ?_⟩
          have : m' ≤ m := by rw [← h]; omega
          omega

theorem maxLevels_attained : ∀ (os : List (Option Nat)) (m : Nat), os ≠ [] →
    maxLevels os = some m → some m ∈ os := by
  intro os
  induction os with
  | nil => intro m h; exact absurd rfl h
  | cons o os ih =>
    intro m _ h
    cases o with
    | none => simp [maxLevels] at h
    | some l =>
      simp only [maxLevels] at h
      cases hm : maxLevels os with
      | none => rw [hm] at h; simp at h
      | some m' =>
        rw [hm] at h
        simp only [Option.some.injEq] at h
        cases os with
        | nil =>
          simp [maxLevels] at hm
          subst hm
          simp only [Nat.max_zero] at h
          simp [← h]
        | cons o₂ os₂ =>
          rcases Nat.le_total l m' with hle | hle
          · have hmm : max l m' = m' := Nat.max_eq_right hle
            rw [hmm] at h
            subst h
            exact List.mem_cons_of_mem _ (ih _ (by simp) hm)
          · have hmm : max l m' = l := Nat.max_eq_left hle
            rw [hmm] at h
            simp [← h]

/-- The successor-fuel unfolding of `getStepLevel`. -/
theorem getStepLevel_succ (g : Graph) (f : Nat) (n : String) :
    getStepLevel g (f+1) n =
      if (depsOf g n).isEmpty then some 0
      else
        match maxLevels ((depsOf g n).map (getStepLevel g f)) with
        | none => none
        | some m => some (m + 1) := rfl

theorem getStepLevel_mono (g : Graph) :
    ∀ fuel n l, getStepLevel g fuel n = some l →
      getStepLevel g (fuel + 1) n = some l := by
  intro fuel
  induction fuel with
  | zero => intro n l h; simp [getStepLevel] at h
  | succ f ih =>
    intro n l h
    rw [getStepLevel_succ] at h
    rw [getStepLevel_succ]
    by_cases hd : (depsOf g n).isEmpty
    · rw [if_pos hd] at h ⊢
      exact h
    · rw [if_neg hd] at h ⊢
      cases hm : maxLevels ((depsOf g n).map (getStepLevel g f)) with
      | none => rw [hm] at h; simp at h
      | some m =>
        rw [hm] at h
        have hmap : (depsOf g n).map (getStepLevel g (f + 1))
            = (depsOf g n).map (getStepLevel g f) := by
          apply List.map_congr_left
          intro d hd'
          obtain ⟨ld, hld, _⟩ := maxLevels_elems _ m hm _ (List.mem_map_of_mem _ hd')
          rw [hld]
          exact ih d ld hld
        rw [hmap, hm]
        exact h

theorem getStepLevel_mono_le (g : Graph) {fuel fuel' : Nat} (hle : fuel ≤ fuel') :
    ∀ n l, getStepLevel g fuel n = some l → getStepLevel g fuel' n = some l := by
  induction fuel' with
  | zero =>
    intro n l h
    have hz : fuel = 0 := by omega
    subst hz
    exact h
  | succ f ih =>
    intro n l h
    by_cases hf : fuel = f + 1
    · subst hf; exact h
    · have hle' : fuel ≤ f := by omega
      exact getStepLevel_mono g f n l (ih hle' n l h)

/-- One dependency edge drops the computed level strictly. -/
theorem edge_level_lt (g : Graph) (F : Nat) {u d : String} {lu : Nat}
    (hu : getStepLevel g F u = some lu) (hd : d ∈ depsOf g u) :
    ∃ ld, getStepLevel g F d = some ld ∧ ld < lu := by
  cases F with
  | zero => simp [getStepLevel] at hu
  | succ f =>
    rw [getStepLevel_succ] at hu
    have hne : ¬ (depsOf g u).isEmpty := by
      cases hds : depsOf g u with
      | nil => rw [hds] at hd; simp at hd
      | cons x xs => simp [hds]
    rw [if_neg hne] at hu
    cases hm : maxLevels ((depsOf g u).map (getStepLevel g f)) with
    | none => rw [hm] at hu; simp at hu
    | some m =>
      rw [hm] at hu
      simp only [Option.some.injEq] at hu
      obtain ⟨ld, hld, hle⟩ := maxLevels_elems _ m hm _ (List.mem_map_of_mem _ hd)
      refine ⟨ld, ?_, by omega⟩
      exact getStepLevel_mono g f d ld hld

/-- Along any transitive dependency chain the computed level drops
strictly; in particular every transitive dependency of a levelled node is
itself levelled. -/
theorem transGen_level_lt (g : Graph) (F : Nat) {u x : String} {lu : Nat}
    (hu : getStepLevel g F u = some lu)
    (h : Relation.TransGen (edgeRel g) u x) :
    ∃ lx, getStepLevel g F x = some lx ∧ lx < lu := by
  induction h with
  | single hux => exact edge_level_lt g F hu hux
  | tail _ hbx ih =>
    obtain ⟨lb, hlb, hblt⟩ := ih
    obtain ⟨lx, hlx, hxlt⟩ := edge_level_lt g F hlb hbx
    exact ⟨lx, hlx, by omega⟩

theorem addToLevel_nil_spec : ∀ (l : Nat) (s : String) (k : Nat) (grp : List String),
    (addToLevel [] l s)[k]? = some grp → ∀ t ∈ grp, k = l ∧ t = s := by
  intro l
  induction l with
  | zero =>
    intro s k grp h t ht
    cases k with
    | zero =>
      simp only [addToLevel, List.getElem?_cons_zero, Option.some.injEq] at h
      subst h
      simp only [List.mem_singleton] at ht
      exact ⟨rfl, ht⟩
    | succ k => simp [addToLevel] at h
  | succ l ih =>
    intro s k grp h t ht
    cases k with
    | zero =>
      simp only [addToLevel, List.getElem?_cons_zero, Option.some.injEq] at h
      subst h
      simp at ht
    | succ k =>
      simp only [addToLevel, List.getElem?_cons_succ] at h
      obtain ⟨hk, hts⟩ := ih s k grp h t ht
      exact ⟨by omega, hts⟩

theorem addToLevel_spec : ∀ (acc : List (List String)) (l : Nat) (s : String)
    (k : Nat) (grp : List String),
    (addToLevel acc l s)[k]? = some grp → ∀ t ∈ grp,
      (∃ grp₀, acc[k]? = some grp₀ ∧ t ∈ grp₀) ∨ (k = l ∧ t = s) := by
  intro acc
  induction acc with
  | nil =>
    intro l s k grp h t ht
    exact Or.inr (addToLevel_nil_spec l s k grp h t ht)
  | cons g gs ih =>
    intro l s k grp h t ht
    cases l with
    | zero =>
      cases k with
      | zero =>
        simp only [addToLevel, List.getElem?_cons_zero, Option.some.injEq] at h
        subst h
        rcases List.mem_append.mp ht with hg | hs
        · exact Or.inl ⟨g, by simp, hg⟩
        · simp only [List.mem_singleton] at hs
          exact Or.inr ⟨rfl, hs⟩
      | succ k =>
        simp only [addToLevel, List.getElem?_cons_succ] at h
        exact Or.inl ⟨grp, by rw [List.getElem?_cons_succ]; exact h, ht⟩
    | succ l =>
      cases k with
      | zero =>
        simp only [addToLevel, List.getElem?_cons_zero, Option.some.injEq] at h
        subst h
        exact Or.inl ⟨g, by simp, ht⟩
      | succ k =>
        simp only [addToLevel, List.getElem?_cons_succ] at h
        rcases ih l s k grp h t ht with ⟨grp₀, hg, htg⟩ | ⟨hk, hts⟩
        · exact Or.inl ⟨grp₀, by rw [List.getElem?_cons_succ]; exact hg, htg⟩
        · exact Or.inr ⟨by omega, hts⟩

/-- After a successful `groupLoop`, every member of a level group was
assigned exactly that level by `getStepLevel`. -/
theorem groupLoop_levels (g : Graph) (F : Nat) :
    ∀ (order : List String) (acc levels : List (List String)),
      groupLoop g F order acc = some levels →
      (∀ (k : Nat) grp t, acc[k]? = some grp → t ∈ grp →
        getStepLevel g F t = some k) →
      (∀ (k : Nat) grp t, levels[k]? = some grp → t ∈ grp →
        getStepLevel g F t = some k) := by
  intro order
  induction order with
  | nil =>
    intro acc levels h hacc
    simp only [groupLoop, Option.some.injEq] at h
    subst h
    exact hacc
  | cons s rest ih =>
    intro acc levels h hacc
    simp only [groupLoop] at h
    cases hl : getStepLevel g F s with
    | none => rw [hl] at h; simp at h
    | some l =>
      rw [hl] at h
      refine ih (addToLevel acc l s) levels h ?_
      intro k grp t hk ht
      rcases addToLevel_spec acc l s k grp hk t ht with ⟨grp₀, hg, htg⟩ | ⟨rfl, rfl⟩
      · exact hacc k grp₀ t hg htg
      · exact hl

/-- The diamond graph a (no deps), b (dep a), c (dep a), d (dep b, c). -/
def diamondG : Graph := [("a", []), ("b", ["a"]), ("c", ["a"]), ("d", ["b", "c"])]

/-- A flow over the diamond graph (actions are irrelevant to levels). -/
def dFlow : FlowDefinition Nat := ⟨[], diamondG⟩

/-- C5: level computation assigns level 0 exactly to the steps with no
flow-local dependencies and level k+1 exactly to the steps whose
dependencies' maximum level is k; for the diamond graph the computed level
groups are exactly [a], [b, c], [d]; and no two steps placed in the same
level group have a direct or transitive dependency between them. -/
theorem computeLevels_spec (g : Graph) :
    (∀ (fuel : Nat) (n : String) (l : Nat), getStepLevel g fuel n = some l →
      (l = 0 ↔ depsOf g n = [])) ∧
    (∀ (n : String) (k : Nat), getStepLevel g (fuelOf g) n = some (k + 1) →
      (∀ d ∈ depsOf g n, ∃ ld, getStepLevel g (fuelOf g) d = some ld ∧ ld ≤ k) ∧
      (∃ d ∈ depsOf g n, getStepLevel g (fuelOf g) d = some k)) ∧
    groupStepsByLevel dFlow ["a", "b", "c", "d"] = some [["a"], ["b", "c"], ["d"]] ∧
    (∀ {V : Type} (flow : FlowDefinition V) (order : List String)
        (levels : List (List String)) (k : Nat) (grp : List String) (s t : String),
      groupStepsByLevel flow order = some levels →
      levels[k]? = some grp → s ∈ grp → t ∈ grp →
      ¬ Relation.TransGen (edgeRel flow.dependencies) s t) := by
  refine ⟨?_, ?_, by rfl, ?_⟩
  · intro fuel n l h
    cases fuel with
    | zero => simp [getStepLevel] at h
    | succ f =>
      rw [getStepLevel_succ] at h
      by_cases hd : (depsOf g n).isEmpty
      · rw [if_pos hd] at h
        simp only [Option.some.injEq] at h
        subst h
        simp only [List.isEmpty_iff] at hd
        simp [hd]
      · rw [if_neg hd] at h
        cases hm : maxLevels ((depsOf g n).map (getStepLevel g f)) with
        | none => rw [hm] at h; simp at h
        | some m =>
          rw [hm] at h
          simp only [Option.some.injEq] at h
          subst h
          simp only [List.isEmpty_iff] at hd
          constructor
          · intro hc; omega
          · intro hc; exact absurd hc hd
  · intro n k h
    have hF : fuelOf g = (namesOf g).length + 1 := rfl
    rw [hF, getStepLevel_succ] at h
    by_cases hd : (depsOf g n).isEmpty
    · rw [if_pos hd] at h
      simp at h
    · rw [if_neg hd] at h
      cases hm : maxLevels ((depsOf g n).map (getStepLevel g (namesOf g).length)) with
      | none => rw [hm] at h; simp at h
      | some m =>
        rw [hm] at h
        simp only [Option.some.injEq, Nat.add_right_cancel_iff] at h
        subst h
        constructor
        · intro d hdmem
          obtain ⟨ld, hld, hle⟩ := maxLevels_elems _ _ hm _ (List.mem_map_of_mem _ hdmem)
          exact ⟨ld, by rw [hF]; exact getStepLevel_mono g _ d ld hld, hle⟩
        · have hne : (depsOf g n).map (getStepLevel g (namesOf g).length) ≠ [] := by
            simp only [ne_eq, List.map_eq_nil_iff]
            intro hc
            rw [hc] at hd
            simp at hd
          obtain ⟨d, hdmem, hdeq⟩ := List.mem_map.mp (maxLevels_attained _ _ hne hm)
          exact ⟨d, hdmem, by rw [hF]; exact getStepLevel_mono g _ d _ hdeq⟩
  · intro V flow order levels k grp s t hgroup hk hs ht htrans
    unfold groupStepsByLevel at hgroup
    have hlv := groupLoop_levels flow.dependencies (fuelOf flow.dependencies)
      order [] levels hgroup (by intro k grp t hk; simp at hk)
    have hsl := hlv k grp s hk hs
    have htl := hlv k grp t hk ht
    obtain ⟨lx, hlx, hlt⟩ := transGen_level_lt flow.dependencies _ hsl htrans
    rw [htl] at hlx
    simp only [Option.some.injEq] at hlx
    omega

theorem computeLevels_spec_witness :
    (0 = 0 ↔ depsOf diamondG "a" = []) ∧
    ((∀ d ∈ depsOf diamondG "d",
        ∃ ld, getStepLevel diamondG (fuelOf diamondG) d = some ld ∧ ld ≤ 1) ∧
     (∃ d ∈ depsOf diamondG "d",
        getStepLevel diamondG (fuelOf diamondG) d = some 1)) ∧
    groupStepsByLevel dFlow ["a", "b", "c", "d"] = some [["a"], ["b", "c"], ["d"]] ∧
    ¬ Relation.TransGen (edgeRel dFlow.dependencies) "b" "c" := by
  have h := computeLevels_spec diamondG
  exact ⟨h.1 (fuelOf diamondG) "a" 0 rfl, h.2.1 "d" 1 rfl, h.2.2.1,
    h.2.2.2 dFlow ["a", "b", "c", "d"] [["a"], ["b", "c"], ["d"]] 1 ["b", "c"]
      "b" "c" rfl rfl (by simp) (by simp)⟩

/-- The recorded outcome of a trace event. -/
def evtOutcome {V : Type} : CallEvt V → Except String (StepOutcome V)
  | .impl _ _ o => o
  | .action _ _ _ o => o

/-- Step `d` completed in trace `tr` with (awaited) flow result `v`. -/
def Completed {V : Type} (tr : List (CallEvt V)) (d : String) (v : V) : Prop :=
  ∃ e ∈ tr, evtStep e = d ∧ awaitOutcome (evtOutcome e) = .ok v

theorem Completed.mono {V : Type} {tr tr' : List (CallEvt V)} {d : String} {v : V}
    (h : Completed tr d v) (hsub : ∀ e ∈ tr, e ∈ tr') : Completed tr' d v := by
  obtain ⟨e, he, hs, ho⟩ := h
  exact ⟨e, hsub e he, hs, ho⟩

/-- Every action invocation in the trace received a context containing the
result of every step completed before it. -/
def ActionCtxFull {V : Type} (tr : List (CallEvt V)) : Prop :=
  ∀ (t₁ : List (CallEvt V)) s cv c o t₂, tr = t₁ ++ CallEvt.action s cv c o :: t₂ →
    ∀ d v, Completed t₁ d v → getKey c d = some v

/-- Every action invocation in the trace received a context containing the
already-produced results of the step's declared flow-local dependencies. -/
def ActionCtxDeps {V : Type} (gdep : Graph) (tr : List (CallEvt V)) : Prop :=
  ∀ (t₁ : List (CallEvt V)) s cv c o t₂, tr = t₁ ++ CallEvt.action s cv c o :: t₂ →
    ∀ d ∈ depsOf gdep s, ∃ v, Completed t₁ d v ∧ getKey c d = some v

/-- Every implementation invocation in the trace received an input mapping
containing the already-produced results of the step's declared
dependencies. -/
def ImplInputsDeps {V : Type} (gdep : Graph) (tr : List (CallEvt V)) : Prop :=
  ∀ (t₁ : List (CallEvt V)) s ins o t₂, tr = t₁ ++ CallEvt.impl s ins o :: t₂ →
    ∀ d ∈ depsOf gdep s, ∃ v, Completed t₁ d v ∧ getKey ins d = some v

theorem append_singleton_decomp {α : Type} (e x : α) :
    ∀ (tr t₁ t₂ : List α), tr ++ [e] = t₁ ++ x :: t₂ →
      (∃ t₂', tr = t₁ ++ x :: t₂' ∧ t₂ = t₂' ++ [e]) ∨ (t₁ = tr ∧ x = e ∧ t₂ = []) := by
  intro tr t₁
  induction t₁ generalizing tr with
  | nil =>
    intro t₂ h
    cases tr with
    | nil =>
      have h' : [e] = x :: t₂ := h
      obtain ⟨hx, ht⟩ := List.cons.inj h'
      exact Or.inr ⟨rfl, hx.symm, ht.symm⟩
    | cons y tr' =>
      have h' : y :: (tr' ++ [e]) = x :: t₂ := h
      obtain ⟨hx, ht⟩ := List.cons.inj h'
      exact Or.inl ⟨tr', by simp [hx], ht.symm⟩
  | cons a t₁' ih =>
    intro t₂ h
    cases tr with
    | nil =>
      have h' : [e] = a :: (t₁' ++ x :: t₂) := h
      obtain ⟨_, ht⟩ := List.cons.inj h'
      exact absurd ht.symm (by simp)
    | cons y tr' =>
      have h' : y :: (tr' ++ [e]) = a :: (t₁' ++ x :: t₂) := h
      obtain ⟨hy, ht⟩ := List.cons.inj h'
      rcases ih tr' t₂ ht with ⟨t₂', h1, h2⟩ | ⟨h1, h2, h3⟩
      · exact Or.inl ⟨t₂', by simp [hy, h1], h2⟩
      · exact Or.inr ⟨by simp [hy, h1], h2, h3⟩

theorem actionCtxFull_append {V : Type} {tr : List (CallEvt V)} {e : CallEvt V}
    (h : ActionCtxFull tr)
    (he : ∀ s cv c o, e = CallEvt.action s cv c o →
      ∀ d v, Completed tr d v → getKey c d = some v) :
    ActionCtxFull (tr ++ [e]) := by
  intro t₁ s cv c o t₂ hdec d v hc
  rcases append_singleton_decomp e (CallEvt.action s cv c o) tr t₁ t₂ hdec with
    ⟨t₂', h1, _⟩ | ⟨h1, h2, _⟩
  · exact h t₁ s cv c o t₂' h1 d v hc
  · subst h1
    exact he s cv c o h2.symm d v hc

theorem actionCtxDeps_append {V : Type} {gdep : Graph} {tr : List (CallEvt V)}
    {e : CallEvt V} (h : ActionCtxDeps gdep tr)
    (he : ∀ s cv c o, e = CallEvt.action s cv c o →
      ∀ d ∈ depsOf gdep s, ∃ v, Completed tr d v ∧ getKey c d = some v) :
    ActionCtxDeps gdep (tr ++ [e]) := by
  intro t₁ s cv c o t₂ hdec d hd
  rcases append_singleton_decomp e (CallEvt.action s cv c o) tr t₁ t₂ hdec with
    ⟨t₂', h1, _⟩ | ⟨h1, h2, _⟩
  · exact h t₁ s cv c o t₂' h1 d hd
  · subst h1
    exact he s cv c o h2.symm d hd

theorem implInputsDeps_append {V : Type} {gdep : Graph} {tr : List (CallEvt V)}
    {e : CallEvt V} (h : ImplInputsDeps gdep tr)
    (he : ∀ s ins o, e = CallEvt.impl s ins o →
      ∀ d ∈ depsOf gdep s, ∃ v, Completed tr d v ∧ getKey ins d = some v) :
    ImplInputsDeps gdep (tr ++ [e]) := by
  intro t₁ s ins o t₂ hdec d hd
  rcases append_singleton_decomp e (CallEvt.impl s ins o) tr t₁ t₂ hdec with
    ⟨t₂', h1, _⟩ | ⟨h1, h2, _⟩
  · exact h t₁ s ins o t₂' h1 d hd
  · subst h1
    exact he s ins o h2.symm d hd

theorem inputsFor_getKey {V : Type} (undef : V) (conts : List (String × V)) :
    ∀ (deps : List String) (d : String), d ∈ deps →
      getKey (inputsFor undef conts deps) d = some ((getKey conts d).getD undef) := by
  intro deps
  induction deps with
  | nil => intro d hd; simp at hd
  | cons d' deps ih =>
    intro d hd
    simp only [inputsFor, List.map_cons, getKey]
    by_cases hdd : d' = d
    · subst hdd
      rw [if_pos rfl]
    · rw [if_neg hdd]
      rcases List.mem_cons.mp hd with h | h
      · exact absurd h.symm hdd
      · exact ih d h

theorem depsBefore_split {g : Graph} {r : List String} (db : DepsBefore g r) :
    ∀ (r₁ : List String) (s : String) (r₂ : List String), r = r₁ ++ s :: r₂ →
      ∀ d ∈ depsOf g s, d ∈ r₁ := by
  intro r₁ s r₂ hr d hd
  have hs : r[r₁.length]? = some s := by
    rw [hr, List.getElem?_append_right (Nat.le_refl _)]
    simp
  obtain ⟨i, hi, hdi⟩ := db r₁.length s hs d hd
  rw [hr, List.getElem?_append_left hi] at hdi
  obtain ⟨hlt, heq⟩ := List.getElem?_eq_some_iff.mp hdi
  exact heq ▸ List.getElem_mem hlt

/-- Context propagation through the blocking step loop: the loop's new
trace keeps every recorded context complete for previously completed steps
and for the step's declared dependencies, and every recorded input mapping
complete for the step's declared dependencies. -/
theorem executeLoop_ctx_faithful {V : Type} (undef : V) (w : WorkflowInstance V)
    (flow : FlowDefinition V) (isBuild : Bool)
    (hbase : isBuild = true →
      ∀ n, depsOf w.dependencies n = depsOf flow.dependencies n)
    (hacts : ∀ n d, d ∈ depsOf flow.dependencies n →
      (getKey flow.steps d).isSome = true) :
    ∀ (remaining : List String) (ctx res conts : List (String × V))
      (log tr₀ : List (CallEvt V)) out conts' log',
      executeLoop undef w flow isBuild remaining ctx res conts log
        = (out, conts', log') →
      remaining.Nodup →
      (∀ d v, Completed tr₀ d v → getKey ctx d = some v) →
      (isBuild = true → ∀ d v, Completed tr₀ d v → getKey conts d = some v) →
      ActionCtxFull tr₀ →
      ActionCtxDeps flow.dependencies tr₀ →
      ImplInputsDeps flow.dependencies tr₀ →
      (∀ (r₁ : List String) s r₂, remaining = r₁ ++ s :: r₂ →
        ∀ d ∈ depsOf flow.dependencies s, d ∈ r₁ ∨ ∃ v, Completed tr₀ d v) →
      (∀ s ∈ remaining, ∀ e ∈ tr₀, evtStep e ≠ s) →
      ∃ Δ, log' = log ++ Δ ∧ ActionCtxFull (tr₀ ++ Δ) ∧
        ActionCtxDeps flow.dependencies (tr₀ ++ Δ) ∧
        ImplInputsDeps flow.dependencies (tr₀ ++ Δ) := by
  intro remaining
  induction remaining with
  | nil =>
    intro ctx res conts log tr₀ out conts' log' h _ _ _ hFull hDeps hIns _ _
    simp only [executeLoop, Prod.mk.injEq] at h
    obtain ⟨_, _, hlog⟩ := h
    subst hlog
    exact ⟨[], by simp, by simpa, by simpa, by simpa⟩
  | cons s rest ih =>
    intro ctx res conts log tr₀ out conts' log' h hnd hI1 hI2 hFull hDeps hIns hI4 hI5
    obtain ⟨hs_nr, hnd'⟩ := List.nodup_cons.mp hnd
    simp only [executeLoop] at h
    cases hk : getKey flow.steps s with
    | none =>
      simp only [hk] at h
      refine ih ctx res conts log tr₀ out conts' log' h hnd' hI1 hI2 hFull hDeps hIns
        ?_ ?_
      · intro r₁ s' r₂ hr d hd
        rcases hI4 (s :: r₁) s' r₂ (by rw [hr]; rfl) d hd with hmem | hdone
        · rcases List.mem_cons.mp hmem with rfl | hmem'
          · have := hacts s' d hd
            rw [hk] at this
            simp at this
          · exact Or.inl hmem'
        · exact Or.inr hdone
      · intro s' hs' e he
        exact hI5 s' (List.mem_cons_of_mem _ hs') e he
    | some fsd =>
      simp only [hk] at h
      have hobDeps : ∀ d ∈ depsOf flow.dependencies s,
          ∃ v, Completed tr₀ d v ∧ getKey ctx d = some v := by
        intro d hd
        rcases hI4 [] s rest rfl d hd with hmem | ⟨v, hv⟩
        · simp at hmem
        · exact ⟨v, hv, hI1 d v hv⟩
      cases isBuild with
      | false =>
        simp only [Bool.false_eq_true, if_false] at h
        cases ho : fsd.action ((getKey conts s).getD undef) ctx with
        | error e₀ =>
          simp only [ho] at h
          simp only [Prod.mk.injEq] at h
          obtain ⟨-, -, hlog⟩ := h
          refine ⟨[CallEvt.action s ((getKey conts s).getD undef) ctx (.error e₀)],
            hlog.symm, ?_, ?_, ?_⟩
          · refine actionCtxFull_append hFull ?_
            intro s' cv c o heq
            injection heq with h1 h2 h3 h4
            subst h3
            exact hI1
          · refine actionCtxDeps_append hDeps ?_
            intro s' cv c o heq
            injection heq with h1 h2 h3 h4
            subst h1; subst h3
            exact hobDeps
          · refine implInputsDeps_append hIns ?_
            intro s' ins o heq
            exact CallEvt.noConfusion heq
        | ok o =>
          cases o with
          | promise p =>
            simp only [ho] at h
            simp only [Prod.mk.injEq] at h
            obtain ⟨-, -, hlog⟩ := h
            refine ⟨[CallEvt.action s ((getKey conts s).getD undef) ctx
              (.ok (.promise p))], hlog.symm, ?_, ?_, ?_⟩
            · refine actionCtxFull_append hFull ?_
              intro s' cv c o heq
              injection heq with h1 h2 h3 h4
              subst h3
              exact hI1
            · refine actionCtxDeps_append hDeps ?_
              intro s' cv c o heq
              injection heq with h1 h2 h3 h4
              subst h1; subst h3
              exact hobDeps
            · refine implInputsDeps_append hIns ?_
              intro s' ins o heq
              exact CallEvt.noConfusion heq
          | val v =>
            simp only [ho] at h
            have hev : Completed (tr₀ ++ [CallEvt.action s
                ((getKey conts s).getD undef) ctx (.ok (.val v))]) s v :=
              ⟨CallEvt.action s ((getKey conts s).getD undef) ctx (.ok (.val v)),
               List.mem_append_right _ (by simp), rfl, rfl⟩
            have hI1' : ∀ d v', Completed (tr₀ ++ [CallEvt.action s
                ((getKey conts s).getD undef) ctx (.ok (.val v))]) d v' →
                getKey (setKey ctx s v) d = some v' := by
              intro d v' hc
              obtain ⟨e, he, hes, heo⟩ := hc
              rcases List.mem_append.mp he with hin | hone
              · have hne : d ≠ s := fun hds => by
                  subst hds
                  exact hI5 d (by simp) e hin hes
                rw [getKey_setKey_ne _ _ _ _ hne]
                exact hI1 d v' ⟨e, hin, hes, heo⟩
              · simp only [List.mem_singleton] at hone
                subst hone
                simp only [evtStep] at hes
                subst hes
                simp only [evtOutcome, awaitOutcome, Except.ok.injEq] at heo
                subst heo
                rw [getKey_setKey_self]
            have hFull' : ActionCtxFull (tr₀ ++ [CallEvt.action s
                ((getKey conts s).getD undef) ctx (.ok (.val v))]) := by
              refine actionCtxFull_append hFull ?_
              intro s' cv c o heq
              injection heq with h1 h2 h3 h4
              subst h3
              exact hI1
            have hDeps' : ActionCtxDeps flow.dependencies (tr₀ ++
                [CallEvt.action s ((getKey conts s).getD undef) ctx
                  (.ok (.val v))]) := by
              refine actionCtxDeps_append hDeps ?_
              intro s' cv c o heq
              injection heq with h1 h2 h3 h4
              subst h1; subst h3
              exact hobDeps
            have hIns' : ImplInputsDeps flow.dependencies (tr₀ ++
                [CallEvt.action s ((getKey conts s).getD undef) ctx
                  (.ok (.val v))]) := by
              refine implInputsDeps_append hIns ?_
              intro s' ins o heq
              exact CallEvt.noConfusion heq
            have hI4' : ∀ (r₁ : List String) s' r₂, rest = r₁ ++ s' :: r₂ →
                ∀ d ∈ depsOf flow.dependencies s', d ∈ r₁ ∨
                  ∃ v', Completed (tr₀ ++ [CallEvt.action s
                    ((getKey conts s).getD undef) ctx (.ok (.val v))]) d v' := by
              intro r₁ s' r₂ hr d hd
              rcases hI4 (s :: r₁) s' r₂ (by rw [hr]; rfl) d hd with hmem | ⟨v', hv'⟩
              · rcases List.mem_cons.mp hmem with rfl | hmem'
                · exact Or.inr ⟨v, hev⟩
                · exact Or.inl hmem'
              · exact Or.inr ⟨v', hv'.mono (fun e he => List.mem_append_left _ he)⟩
            have hI5' : ∀ s' ∈ rest, ∀ e ∈ tr₀ ++ [CallEvt.action s
                ((getKey conts s).getD undef) ctx (.ok (.val v))],
                evtStep e ≠ s' := by
              intro s' hs' e he
              rcases List.mem_append.mp he with hin | hone
              · exact hI5 s' (List.mem_cons_of_mem _ hs') e hin
              · simp only [List.mem_singleton] at hone
                subst hone
                simp only [evtStep]
                intro hc
                subst hc
                exact hs_nr hs'
            obtain ⟨Δ', hlog', hF', hD', hI'⟩ :=
              ih (setKey ctx s v) (setKey res s v) conts
                (log ++ [CallEvt.action s ((getKey conts s).getD undef) ctx
                  (.ok (.val v))])
                (tr₀ ++ [CallEvt.action s ((getKey conts s).getD undef) ctx
                  (.ok (.val v))])
                out conts' log' h hnd'
                hI1' (fun hc => Bool.noConfusion hc)
                hFull' hDeps' hIns' hI4' hI5'
            refine ⟨CallEvt.action s ((getKey conts s).getD undef) ctx
                (.ok (.val v)) :: Δ', ?_, ?_, ?_, ?_⟩
            · rw [hlog']; simp
            · rw [List.append_cons]; exact hF'
            · rw [List.append_cons]; exact hD'
            · rw [List.append_cons]; exact hI'
      | true =>
        simp only [if_true] at h
        cases hi : getKey w.steps s with
        | none =>
          simp only [hi] at h
          simp only [Prod.mk.injEq] at h
          obtain ⟨-, -, hlog⟩ := h
          refine ⟨[], ?_, by simpa, by simpa, by simpa⟩
          rw [← hlog, List.append_nil]
        | some impl =>
          simp only [hi] at h
          have hwdeps : depsOf w.dependencies s = depsOf flow.dependencies s :=
            hbase rfl s
          have hobIns : ∀ d ∈ depsOf flow.dependencies s,
              ∃ v, Completed tr₀ d v ∧
                getKey (inputsFor undef conts (depsOf w.dependencies s)) d
                  = some v := by
            intro d hd
            rcases hI4 [] s rest rfl d hd with hmem | ⟨v, hv⟩
            · simp at hmem
            · refine ⟨v, hv, ?_⟩
              rw [inputsFor_getKey undef conts _ d (by rw [hwdeps]; exact hd)]
              rw [hI2 rfl d v hv]
              rfl
          cases ho : impl (implCallCount log s)
              (inputsFor undef conts (depsOf w.dependencies s)) with
          | error e₀ =>
            simp only [ho] at h
            simp only [Prod.mk.injEq] at h
            obtain ⟨-, -, hlog⟩ := h
            refine ⟨[CallEvt.impl s (inputsFor undef conts (depsOf w.dependencies s))
              (.error e₀)], hlog.symm, ?_, ?_, ?_⟩
            · refine actionCtxFull_append hFull ?_
              intro s' cv c o heq
              exact CallEvt.noConfusion heq
            · refine actionCtxDeps_append hDeps ?_
              intro s' cv c o heq
              exact CallEvt.noConfusion heq
            · refine implInputsDeps_append hIns ?_
              intro s' ins o heq
              injection heq with h1 h2 h3
              subst h1; subst h2
              exact hobIns
          | ok o =>
            cases o with
            | promise p =>
              simp only [ho] at h
              simp only [Prod.mk.injEq] at h
              obtain ⟨-, -, hlog⟩ := h
              refine ⟨[CallEvt.impl s
                (inputsFor undef conts (depsOf w.dependencies s))
                (.ok (.promise p))], hlog.symm, ?_, ?_, ?_⟩
              · refine actionCtxFull_append hFull ?_
                intro s' cv c o heq
                exact CallEvt.noConfusion heq
              · refine actionCtxDeps_append hDeps ?_
                intro s' cv c o heq
                exact CallEvt.noConfusion heq
              · refine implInputsDeps_append hIns ?_
                intro s' ins o heq
                injection heq with h1 h2 h3
                subst h1; subst h2
                exact hobIns
            | val v =>
              simp only [ho] at h
              have hev : Completed (tr₀ ++ [CallEvt.impl s
                  (inputsFor undef conts (depsOf w.dependencies s))
                  (.ok (.val v))]) s v :=
                ⟨CallEvt.impl s (inputsFor undef conts (depsOf w.dependencies s))
                   (.ok (.val v)),
                 List.mem_append_right _ (by simp), rfl, rfl⟩
              have hI1' : ∀ d v', Completed (tr₀ ++ [CallEvt.impl s
                  (inputsFor undef conts (depsOf w.dependencies s))
                  (.ok (.val v))]) d v' →
                  getKey (setKey ctx s v) d = some v' := by
                intro d v' hc
                obtain ⟨e, he, hes, heo⟩ := hc
                rcases List.mem_append.mp he with hin | hone
                · have hne : d ≠ s := fun hds => by
                    subst hds
                    exact hI5 d (by simp) e hin hes
                  rw [getKey_setKey_ne _ _ _ _ hne]
                  exact hI1 d v' ⟨e, hin, hes, heo⟩
                · simp only [List.mem_singleton] at hone
                  subst hone
                  simp only [evtStep] at hes
                  subst hes
                  simp only [evtOutcome, awaitOutcome, Except.ok.injEq] at heo
                  subst heo
                  rw [getKey_setKey_self]
              have hI2' : true = true → ∀ d v', Completed (tr₀ ++ [CallEvt.impl s
                  (inputsFor undef conts (depsOf w.dependencies s))
                  (.ok (.val v))]) d v' →
                  getKey (setKey conts s v) d = some v' := by
                intro _ d v' hc
                obtain ⟨e, he, hes, heo⟩ := hc
                rcases List.mem_append.mp he with hin | hone
                · have hne : d ≠ s := fun hds => by
                    subst hds
                    exact hI5 d (by simp) e hin hes
                  rw [getKey_setKey_ne _ _ _ _ hne]
                  exact hI2 rfl d v' ⟨e, hin, hes, heo⟩
                · simp only [List.mem_singleton] at hone
                  subst hone
                  simp only [evtStep] at hes
                  subst hes
                  simp only [evtOutcome, awaitOutcome, Except.ok.injEq] at heo
                  subst heo
                  rw [getKey_setKey_self]
              have hFull' : ActionCtxFull (tr₀ ++ [CallEvt.impl s
                  (inputsFor undef conts (depsOf w.dependencies s))
                  (.ok (.val v))]) := by
                refine actionCtxFull_append hFull ?_
                intro s' cv c o heq
                exact CallEvt.noConfusion heq
              have hDeps' : ActionCtxDeps flow.dependencies (tr₀ ++
                  [CallEvt.impl s (inputsFor undef conts (depsOf w.dependencies s))
                    (.ok (.val v))]) := by
                refine actionCtxDeps_append hDeps ?_
                intro s' cv c o heq
                exact CallEvt.noConfusion heq
              have hIns' : ImplInputsDeps flow.dependencies (tr₀ ++
                  [CallEvt.impl s (inputsFor undef conts (depsOf w.dependencies s))
                    (.ok (.val v))]) := by
                refine implInputsDeps_append hIns ?_
                intro s' ins o heq
                injection heq with h1 h2 h3
                subst h1; subst h2
                exact hobIns
              have hI4' : ∀ (r₁ : List String) s' r₂, rest = r₁ ++ s' :: r₂ →
                  ∀ d ∈ depsOf flow.dependencies s', d ∈ r₁ ∨
                    ∃ v', Completed (tr₀ ++ [CallEvt.impl s
                      (inputsFor undef conts (depsOf w.dependencies s))
                      (.ok (.val v))]) d v' := by
                intro r₁ s' r₂ hr d hd
                rcases hI4 (s :: r₁) s' r₂ (by rw [hr]; rfl) d hd with hmem | ⟨v', hv'⟩
                · rcases List.mem_cons.mp hmem with rfl | hmem'
                  · exact Or.inr ⟨v, hev⟩
                  · exact Or.inl hmem'
                · exact Or.inr ⟨v', hv'.mono (fun e he => List.mem_append_left _ he)⟩
              have hI5' : ∀ s' ∈ rest, ∀ e ∈ tr₀ ++ [CallEvt.impl s
                  (inputsFor undef conts (depsOf w.dependencies s))
                  (.ok (.val v))], evtStep e ≠ s' := by
                intro s' hs' e he
                rcases List.mem_append.mp he with hin | hone
                · exact hI5 s' (List.mem_cons_of_mem _ hs') e hin
                · simp only [List.mem_singleton] at hone
                  subst hone
                  simp only [evtStep]
                  intro hc
                  subst hc
                  exact hs_nr hs'
              obtain ⟨Δ', hlog', hF', hD', hI'⟩ :=
                ih (setKey ctx s v) (setKey res s v) (setKey conts s v)
                  (log ++ [CallEvt.impl s
                    (inputsFor undef conts (depsOf w.dependencies s))
                    (.ok (.val v))])
                  (tr₀ ++ [CallEvt.impl s
                    (inputsFor undef conts (depsOf w.dependencies s))
                    (.ok (.val v))])
                  out conts' log' h hnd'
                  hI1' hI2' hFull' hDeps' hIns' hI4' hI5'
              refine ⟨CallEvt.impl s
                  (inputsFor undef conts (depsOf w.dependencies s))
                  (.ok (.val v)) :: Δ', ?_, ?_, ?_, ?_⟩
              · rw [hlog']; simp
              · rw [List.append_cons]; exact hF'
              · rw [List.append_cons]; exact hD'
              · rw [List.append_cons]; exact hI'


theorem addToLevel_nil_mem_put : ∀ (l : Nat) (s : String),
    ∃ grp, (addToLevel [] l s)[l]? = some grp ∧ s ∈ grp := by
  intro l
  induction l with
  | zero => intro s; exact ⟨[s], rfl, by simp⟩
  | succ l ih =>
    intro s
    obtain ⟨grp, hg, hs⟩ := ih s
    exact ⟨grp, by simpa [addToLevel] using hg, hs⟩

theorem addToLevel_mem_put : ∀ (acc : List (List String)) (l : Nat) (s : String),
    ∃ grp, (addToLevel acc l s)[l]? = some grp ∧ s ∈ grp := by
  intro acc
  induction acc with
  | nil => exact addToLevel_nil_mem_put
  | cons g gs ih =>
    intro l s
    cases l with
    | zero => exact ⟨g ++ [s], by simp [addToLevel], by simp⟩
    | succ l =>
      obtain ⟨grp, hg, hs⟩ := ih l s
      exact ⟨grp, by simpa [addToLevel] using hg, hs⟩

theorem addToLevel_preserve : ∀ (acc : List (List String)) (l : Nat) (s : String)
    (k : Nat) (grp : List String), acc[k]? = some grp →
      ∃ grp', (addToLevel acc l s)[k]? = some grp' ∧ ∀ t ∈ grp, t ∈ grp' := by
  intro acc
  induction acc with
  | nil => intro l s k grp h; simp at h
  | cons g gs ih =>
    intro l s k grp h
    cases l with
    | zero =>
      cases k with
      | zero =>
        simp only [List.getElem?_cons_zero, Option.some.injEq] at h
        subst h
        exact ⟨g ++ [s], by simp [addToLevel], fun t ht => List.mem_append_left _ ht⟩
      | succ k =>
        simp only [List.getElem?_cons_succ] at h
        exact ⟨grp, by simpa [addToLevel] using h, fun t ht => ht⟩
    | succ l =>
      cases k with
      | zero =>
        simp only [List.getElem?_cons_zero, Option.some.injEq] at h
        subst h
        exact ⟨g, by simp [addToLevel], fun t ht => ht⟩
      | succ k =>
        simp only [List.getElem?_cons_succ] at h
        obtain ⟨grp', hg, hsub⟩ := ih l s k grp h
        exact ⟨grp', by simpa [addToLevel] using hg, hsub⟩

theorem groupLoop_mono (g : Graph) (F : Nat) :
    ∀ (order : List String) (acc levels : List (List String)),
      groupLoop g F order acc = some levels →
      ∀ (k : Nat) grp t, acc[k]? = some grp → t ∈ grp →
        ∃ grp', levels[k]? = some grp' ∧ t ∈ grp' := by
  intro order
  induction order with
  | nil =>
    intro acc levels h k grp t hk ht
    simp only [groupLoop, Option.some.injEq] at h
    subst h
    exact ⟨grp, hk, ht⟩
  | cons s rest ih =>
    intro acc levels h k grp t hk ht
    simp only [groupLoop] at h
    cases hl : getStepLevel g F s with
    | none => rw [hl] at h; simp at h
    | some l =>
      rw [hl] at h
      obtain ⟨grp', hg', hsub⟩ := addToLevel_preserve acc l s k grp hk
      exact ih _ levels h k grp' t hg' (hsub t ht)

theorem groupLoop_complete (g : Graph) (F : Nat) :
    ∀ (order : List String) (acc levels : List (List String)),
      groupLoop g F order acc = some levels →
      ∀ t ∈ order, ∃ l grp, getStepLevel g F t = some l ∧
        levels[l]? = some grp ∧ t ∈ grp := by
  intro order
  induction order with
  | nil => intro acc levels _ t ht; simp at ht
  | cons s rest ih =>
    intro acc levels h t ht
    simp only [groupLoop] at h
    cases hl : getStepLevel g F s with
    | none => rw [hl] at h; simp at h
    | some l =>
      rw [hl] at h
      rcases List.mem_cons.mp ht with rfl | hmem
      · obtain ⟨grp, hg, hs⟩ := addToLevel_mem_put acc l t
        obtain ⟨grp', hg', hs'⟩ := groupLoop_mono g F rest _ levels h l grp t hg hs
        exact ⟨l, grp', hl, hg', hs'⟩
      · exact ih _ levels h t hmem

theorem foldl_setKey_not_mem {V : Type} :
    ∀ (items : List (String × V)) (m : List (String × V)) (d : String),
      d ∉ items.map Prod.fst →
      getKey (items.foldl (fun m it => setKey m it.1 it.2) m) d = getKey m d := by
  intro items
  induction items with
  | nil => intro m d _; rfl
  | cons p rest ih =>
    intro m d hd
    simp only [List.map_cons, List.mem_cons] at hd
    push_neg at hd
    simp only [List.foldl_cons]
    rw [ih _ d hd.2, getKey_setKey_ne _ _ _ _ hd.1]

theorem foldl_setKey_mem {V : Type} :
    ∀ (items : List (String × V)) (m : List (String × V)) (d : String) (v : V),
      (items.map Prod.fst).Nodup → (d, v) ∈ items →
      getKey (items.foldl (fun m it => setKey m it.1 it.2) m) d = some v := by
  intro items
  induction items with
  | nil => intro m d v _ h; simp at h
  | cons p rest ih =>
    intro m d v hnd hmem
    rw [List.map_cons] at hnd
    obtain ⟨hp, hnd'⟩ := List.nodup_cons.mp hnd
    simp only [List.foldl_cons]
    rcases List.mem_cons.mp hmem with rfl | hmem'
    · rw [foldl_setKey_not_mem rest _ d hp, getKey_setKey_self]
    · exact ih _ d v hnd' hmem'

/-- Context propagation through one `executeAsync` level: the events
appended while the level settles belong to level members, keep the
dependency predicates, and the collected `{stepName, result}` items are
exactly the steps that completed in this level. -/
theorem runLevel_ctx_faithful {V : Type} (undef : V) (w : WorkflowInstance V)
    (flow : FlowDefinition V) (isBuild : Bool) (ctx : List (String × V))
    (hbase : isBuild = true →
      ∀ n, depsOf w.dependencies n = depsOf flow.dependencies n) :
    ∀ (lvl : List String) (conts : List (String × V)) (log tr : List (CallEvt V))
      (items : List (String × V)) (errs : List String)
      (conts' : List (String × V)) (log' : List (CallEvt V)),
      runLevel undef w flow isBuild ctx lvl conts log
        = (items, errs, conts', log') →
      lvl.Nodup →
      (∀ s ∈ lvl, ∀ e ∈ tr, evtStep e ≠ s) →
      (∀ s ∈ lvl, ∀ d ∈ depsOf flow.dependencies s,
        ∃ v, Completed tr d v ∧ getKey ctx d = some v) →
      (isBuild = true → ∀ d v, Completed tr d v → getKey conts d = some v) →
      ActionCtxDeps flow.dependencies tr →
      ImplInputsDeps flow.dependencies tr →
      ∃ Δ, log' = log ++ Δ ∧
        ActionCtxDeps flow.dependencies (tr ++ Δ) ∧
        ImplInputsDeps flow.dependencies (tr ++ Δ) ∧
        (∀ e ∈ Δ, evtStep e ∈ lvl) ∧
        (∀ d v, Completed Δ d v → (d, v) ∈ items) ∧
        (∀ it ∈ items, it.1 ∈ lvl ∧ Completed Δ it.1 it.2) ∧
        (items.map Prod.fst).Nodup ∧
        (isBuild = true → ∀ d v, Completed (tr ++ Δ) d v →
          getKey conts' d = some v) ∧
        (errs = [] → ∀ s ∈ lvl, (getKey flow.steps s).isSome = true →
          ∃ v, (s, v) ∈ items) := by
  intro lvl
  induction lvl with
  | nil =>
    intro conts log tr items errs conts' log' h _ _ _ hcontsf hDeps hIns
    simp only [runLevel, Prod.mk.injEq] at h
    obtain ⟨h1, h2, h3, h4⟩ := h
    subst h1; subst h2; subst h3; subst h4
    refine ⟨[], by simp, by simpa, by simpa, ?_, ?_, ?_, ?_, ?_, ?_⟩
    · intro e he; simp at he
    · intro d v hc; obtain ⟨e, he, -, -⟩ := hc; simp at he
    · intro it hit; simp at hit
    · simp
    · intro hb d v hc
      rw [List.append_nil] at hc
      exact hcontsf hb d v hc
    · intro _ s hs; simp at hs
  | cons s rest ih =>
    intro conts log tr items errs conts' log' h hnd hfresh hctxd hcontsf hDeps hIns
    obtain ⟨hs_nr, hnd'⟩ := List.nodup_cons.mp hnd
    simp only [runLevel] at h
    cases hk : getKey flow.steps s with
    | none =>
      simp only [hk] at h
      obtain ⟨Δ, hlog, hD, hI, hstep, hcompit, hit, hndi, hcf, hcompl⟩ :=
        ih conts log tr items errs conts' log' h hnd'
          (fun s' hs' => hfresh s' (List.mem_cons_of_mem _ hs'))
          (fun s' hs' => hctxd s' (List.mem_cons_of_mem _ hs'))
          hcontsf hDeps hIns
      refine ⟨Δ, hlog, hD, hI,
        fun e he => List.mem_cons_of_mem _ (hstep e he), hcompit,
        fun it hit' => ⟨List.mem_cons_of_mem _ (hit it hit').1, (hit it hit').2⟩,
        hndi, hcf, ?_⟩
      intro herrs s' hs' hsome
      rcases List.mem_cons.mp hs' with rfl | hs''
      · rw [hk] at hsome; simp at hsome
      · exact hcompl herrs s' hs'' hsome
    | some fsd =>
      simp only [hk] at h
      have hobDeps := hctxd s (List.mem_cons_self s rest)
      cases isBuild with
      | false =>
        simp only [Bool.false_eq_true, if_false] at h
        cases ho : awaitOutcome (fsd.action ((getKey conts s).getD undef) ctx) with
        | error e₀ =>
          simp only [ho] at h
          rcases hrec : runLevel undef w flow false ctx rest conts
              (log ++ [CallEvt.action s ((getKey conts s).getD undef) ctx
                (fsd.action ((getKey conts s).getD undef) ctx)]) with
            ⟨items₁, errs₁, conts₁, logr⟩
          rw [hrec] at h
          simp only [Prod.mk.injEq] at h
          obtain ⟨h1, h2, h3, h4⟩ := h
          subst h1; subst h2; subst h3; subst h4
          have hDeps' : ActionCtxDeps flow.dependencies (tr ++
              [CallEvt.action s ((getKey conts s).getD undef) ctx
                (fsd.action ((getKey conts s).getD undef) ctx)]) := by
            refine actionCtxDeps_append hDeps ?_
            intro s' cv c o heq
            injection heq with h1 h2 h3 h4
            subst h1; subst h3
            exact hobDeps
          have hIns' : ImplInputsDeps flow.dependencies (tr ++
              [CallEvt.action s ((getKey conts s).getD undef) ctx
                (fsd.action ((getKey conts s).getD undef) ctx)]) := by
            refine implInputsDeps_append hIns ?_
            intro s' ins o heq
            exact CallEvt.noConfusion heq
          obtain ⟨Δ', hlog', hD', hI', hstep', hcompit', hit', hndi', hcf', hcompl'⟩ :=
            ih conts _ (tr ++ [CallEvt.action s ((getKey conts s).getD undef) ctx
                (fsd.action ((getKey conts s).getD undef) ctx)])
              items₁ errs₁ conts₁ logr hrec hnd'
              (by
                intro s' hs' e he
                rcases List.mem_append.mp he with hin | hone
                · exact hfresh s' (List.mem_cons_of_mem _ hs') e hin
                · simp only [List.mem_singleton] at hone
                  subst hone
                  simp only [evtStep]
                  intro hc
                  subst hc
                  exact hs_nr hs')
              (fun s' hs' d hd =>
                (hctxd s' (List.mem_cons_of_mem _ hs') d hd).elim
                  (fun v hv => ⟨v, hv.1.mono (fun e he => List.mem_append_left _ he),
                    hv.2⟩))
              (fun hc => Bool.noConfusion hc)
              hDeps' hIns'
          refine ⟨CallEvt.action s ((getKey conts s).getD undef) ctx
              (fsd.action ((getKey conts s).getD undef) ctx) :: Δ', ?_, ?_, ?_,
              ?_, ?_, ?_, hndi', fun hc => Bool.noConfusion hc, ?_⟩
          · rw [hlog']; simp
          · rw [List.append_cons]; exact hD'
          · rw [List.append_cons]; exact hI'
          · intro e he
            rcases List.mem_cons.mp he with rfl | heΔ
            · simp only [evtStep]; exact List.mem_cons_self s rest
            · exact List.mem_cons_of_mem _ (hstep' e heΔ)
          · intro d v hc
            obtain ⟨e, he, hes, heo⟩ := hc
            rcases List.mem_cons.mp he with rfl | heΔ
            · simp only [evtOutcome] at heo
              rw [ho] at heo
              exact Except.noConfusion heo
            · exact hcompit' d v ⟨e, heΔ, hes, heo⟩
          · intro it hit''
            refine ⟨List.mem_cons_of_mem _ (hit' it hit'').1,
              (hit' it hit'').2.mono (fun e he => List.mem_cons_of_mem _ he)⟩
          · intro herrs
            exact (List.cons_ne_nil _ _ herrs).elim
        | ok v =>
          simp only [ho] at h
          rcases hrec : runLevel undef w flow false ctx rest conts
              (log ++ [CallEvt.action s ((getKey conts s).getD undef) ctx
                (fsd.action ((getKey conts s).getD undef) ctx)]) with
            ⟨items₁, errs₁, conts₁, logr⟩
          rw [hrec] at h
          simp only [Prod.mk.injEq] at h
          obtain ⟨h1, h2, h3, h4⟩ := h
          subst h1; subst h2; subst h3; subst h4
          have hDeps' : ActionCtxDeps flow.dependencies (tr ++
              [CallEvt.action s ((getKey conts s).getD undef) ctx
                (fsd.action ((getKey conts s).getD undef) ctx)]) := by
            refine actionCtxDeps_append hDeps ?_
            intro s' cv c o heq
            injection heq with h1 h2 h3 h4
            subst h1; subst h3
            exact hobDeps
          have hIns' : ImplInputsDeps flow.dependencies (tr ++
              [CallEvt.action s ((getKey conts s).getD undef) ctx
                (fsd.action ((getKey conts s).getD undef) ctx)]) := by
            refine implInputsDeps_append hIns ?_
            intro s' ins o heq
            exact CallEvt.noConfusion heq
          obtain ⟨Δ', hlog', hD', hI', hstep', hcompit', hit', hndi', hcf', hcompl'⟩ :=
            ih conts _ (tr ++ [CallEvt.action s ((getKey conts s).getD undef) ctx
                (fsd.action ((getKey conts s).getD undef) ctx)])
              items₁ errs₁ conts₁ logr hrec hnd'
              (by
                intro s' hs' e he
                rcases List.mem_append.mp he with hin | hone
                · exact hfresh s' (List.mem_cons_of_mem _ hs') e hin
                · simp only [List.mem_singleton] at hone
                  subst hone
                  simp only [evtStep]
                  intro hc
                  subst hc
                  exact hs_nr hs')
              (fun s' hs' d hd =>
                (hctxd s' (List.mem_cons_of_mem _ hs') d hd).elim
                  (fun v' hv' => ⟨v', hv'.1.mono (fun e he => List.mem_append_left _ he),
                    hv'.2⟩))
              (fun hc => Bool.noConfusion hc)
              hDeps' hIns'
          refine ⟨CallEvt.action s ((getKey conts s).getD undef) ctx
              (fsd.action ((getKey conts s).getD undef) ctx) :: Δ', ?_, ?_, ?_,
              ?_, ?_, ?_, ?_, fun hc => Bool.noConfusion hc, ?_⟩
          · rw [hlog']; simp
          · rw [List.append_cons]; exact hD'
          · rw [List.append_cons]; exact hI'
          · intro e he
            rcases List.mem_cons.mp he with rfl | heΔ
            · simp only [evtStep]; exact List.mem_cons_self s rest
            · exact List.mem_cons_of_mem _ (hstep' e heΔ)
          · intro d v' hc
            obtain ⟨e, he, hes, heo⟩ := hc
            rcases List.mem_cons.mp he with rfl | heΔ
            · simp only [evtStep] at hes
              simp only [evtOutcome] at heo
              rw [ho] at heo
              injection heo with hv
              subst hes; subst hv
              exact List.mem_cons_self _ _
            · exact List.mem_cons_of_mem _ (hcompit' d v' ⟨e, heΔ, hes, heo⟩)
          · intro it hit''
            rcases List.mem_cons.mp hit'' with rfl | hit₁
            · exact ⟨List.mem_cons_self s rest,
                ⟨CallEvt.action s ((getKey conts s).getD undef) ctx
                  (fsd.action ((getKey conts s).getD undef) ctx),
                  List.mem_cons_self _ _, rfl, ho⟩⟩
            · exact ⟨List.mem_cons_of_mem _ (hit' it hit₁).1,
                (hit' it hit₁).2.mono (fun e he => List.mem_cons_of_mem _ he)⟩
          · rw [List.map_cons]
            refine List.nodup_cons.mpr ⟨?_, hndi'⟩
            intro hmem
            obtain ⟨it, hit₁, hfst⟩ := List.mem_map.mp hmem
            have hfst' : it.1 = s := hfst
            exact hs_nr (hfst' ▸ (hit' it hit₁).1)
          · intro herrs s' hs' hsome
            rcases List.mem_cons.mp hs' with rfl | hs''
            · exact ⟨v, List.mem_cons_self _ _⟩
            · obtain ⟨v', hv'⟩ := hcompl' herrs s' hs'' hsome
              exact ⟨v', List.mem_cons_of_mem _ hv'⟩
      | true =>
        simp only [if_true] at h
        cases hi : getKey w.steps s with
        | none =>
          simp only [hi] at h
          rcases hrec : runLevel undef w flow true ctx rest conts log with
            ⟨items₁, errs₁, conts₁, logr⟩
          rw [hrec] at h
          simp only [Prod.mk.injEq] at h
          obtain ⟨h1, h2, h3, h4⟩ := h
          subst h1; subst h2; subst h3; subst h4
          obtain ⟨Δ, hlog, hD, hI, hstep, hcompit, hit, hndi, hcf, hcompl⟩ :=
            ih conts log tr items₁ errs₁ conts₁ logr hrec hnd'
              (fun s' hs' => hfresh s' (List.mem_cons_of_mem _ hs'))
              (fun s' hs' => hctxd s' (List.mem_cons_of_mem _ hs'))
              hcontsf hDeps hIns
          refine ⟨Δ, hlog, hD, hI,
            fun e he => List.mem_cons_of_mem _ (hstep e he), hcompit,
            fun it hit' => ⟨List.mem_cons_of_mem _ (hit it hit').1, (hit it hit').2⟩,
            hndi, hcf, ?_⟩
          intro herrs
          exact (List.cons_ne_nil _ _ herrs).elim
        | some impl =>
          simp only [hi] at h
          have hobIns : ∀ d ∈ depsOf flow.dependencies s,
              ∃ v, Completed tr d v ∧
                getKey (inputsFor undef conts (depsOf w.dependencies s)) d
                  = some v := by
            intro d hd
            obtain ⟨v, hv, -⟩ := hobDeps d hd
            refine ⟨v, hv, ?_⟩
            rw [inputsFor_getKey undef conts _ d (by rw [hbase rfl s]; exact hd)]
            rw [hcontsf rfl d v hv]
            rfl
          cases ho : awaitOutcome (impl (implCallCount log s)
              (inputsFor undef conts (depsOf w.dependencies s))) with
          | error e₀ =>
            simp only [ho] at h
            rcases hrec : runLevel undef w flow true ctx rest conts
                (log ++ [CallEvt.impl s
                  (inputsFor undef conts (depsOf w.dependencies s))
                  (impl (implCallCount log s)
                    (inputsFor undef conts (depsOf w.dependencies s)))]) with
              ⟨items₁, errs₁, conts₁, logr⟩
            rw [hrec] at h
            simp only [Prod.mk.injEq] at h
            obtain ⟨h1, h2, h3, h4⟩ := h
            subst h1; subst h2; subst h3; subst h4
            have hDeps' : ActionCtxDeps flow.dependencies (tr ++
                [CallEvt.impl s (inputsFor undef conts (depsOf w.dependencies s))
                  (impl (implCallCount log s)
                    (inputsFor undef conts (depsOf w.dependencies s)))]) := by
              refine actionCtxDeps_append hDeps ?_
              intro s' cv c o heq
              exact CallEvt.noConfusion heq
            have hIns' : ImplInputsDeps flow.dependencies (tr ++
                [CallEvt.impl s (inputsFor undef conts (depsOf w.dependencies s))
                  (impl (implCallCount log s)
                    (inputsFor undef conts (depsOf w.dependencies s)))]) := by
              refine implInputsDeps_append hIns ?_
              intro s' ins o heq
              injection heq with h1 h2 h3
              subst h1; subst h2
              exact hobIns
            obtain ⟨Δ', hlog', hD', hI', hstep', hcompit', hit', hndi', hcf', hcompl'⟩ :=
              ih conts _ (tr ++ [CallEvt.impl s
                  (inputsFor undef conts (depsOf w.dependencies s))
                  (impl (implCallCount log s)
                    (inputsFor undef conts (depsOf w.dependencies s)))])
                items₁ errs₁ conts₁ logr hrec hnd'
                (by
                  intro s' hs' e he
                  rcases List.mem_append.mp he with hin | hone
                  · exact hfresh s' (List.mem_cons_of_mem _ hs') e hin
                  · simp only [List.mem_singleton] at hone
                    subst hone
                    simp only [evtStep]
                    intro hc
                    subst hc
                    exact hs_nr hs')
                (fun s' hs' d hd =>
                  (hctxd s' (List.mem_cons_of_mem _ hs') d hd).elim
                    (fun v hv => ⟨v, hv.1.mono (fun e he => List.mem_append_left _ he),
                      hv.2⟩))
                (by
                  intro _ d v hc
                  obtain ⟨e, he, hes, heo⟩ := hc
                  rcases List.mem_append.mp he with hin | hone
                  · exact hcontsf rfl d v ⟨e, hin, hes, heo⟩
                  · simp only [List.mem_singleton] at hone
                    subst hone
                    simp only [evtOutcome] at heo
                    rw [ho] at heo
                    exact Except.noConfusion heo)
                hDeps' hIns'
            refine ⟨CallEvt.impl s (inputsFor undef conts (depsOf w.dependencies s))
                (impl (implCallCount log s)
                  (inputsFor undef conts (depsOf w.dependencies s))) :: Δ',
                ?_, ?_, ?_, ?_, ?_, ?_, hndi', ?_, ?_⟩
            · rw [hlog']; simp
            · rw [List.append_cons]; exact hD'
            · rw [List.append_cons]; exact hI'
            · intro e he
              rcases List.mem_cons.mp he with rfl | heΔ
              · simp only [evtStep]; exact List.mem_cons_self s rest
              · exact List.mem_cons_of_mem _ (hstep' e heΔ)
            · intro d v hc
              obtain ⟨e, he, hes, heo⟩ := hc
              rcases List.mem_cons.mp he with rfl | heΔ
              · simp only [evtOutcome] at heo
                rw [ho] at heo
                exact Except.noConfusion heo
              · exact hcompit' d v ⟨e, heΔ, hes, heo⟩
            · intro it hit''
              refine ⟨List.mem_cons_of_mem _ (hit' it hit'').1,
                (hit' it hit'').2.mono (fun e he => List.mem_cons_of_mem _ he)⟩
            · intro hb d v hc
              rw [List.append_cons] at hc
              exact hcf' hb d v hc
            · intro herrs
              exact (List.cons_ne_nil _ _ herrs).elim
          | ok v =>
            simp only [ho] at h
            rcases hrec : runLevel undef w flow true ctx rest (setKey conts s v)
                (log ++ [CallEvt.impl s
                  (inputsFor undef conts (depsOf w.dependencies s))
                  (impl (implCallCount log s)
                    (inputsFor undef conts (depsOf w.dependencies s)))]) with
              ⟨items₁, errs₁, conts₁, logr⟩
            rw [hrec] at h
            simp only [Prod.mk.injEq] at h
            obtain ⟨h1, h2, h3, h4⟩ := h
            subst h1; subst h2; subst h3; subst h4
            have hDeps' : ActionCtxDeps flow.dependencies (tr ++
                [CallEvt.impl s (inputsFor undef conts (depsOf w.dependencies s))
                  (impl (implCallCount log s)
                    (inputsFor undef conts (depsOf w.dependencies s)))]) := by
              refine actionCtxDeps_append hDeps ?_
              intro s' cv c o heq
              exact CallEvt.noConfusion heq
            have hIns' : ImplInputsDeps flow.dependencies (tr ++
                [CallEvt.impl s (inputsFor undef conts (depsOf w.dependencies s))
                  (impl (implCallCount log s)
                    (inputsFor undef conts (depsOf w.dependencies s)))]) := by
              refine implInputsDeps_append hIns ?_
              intro s' ins o heq
              injection heq with h1 h2 h3
              subst h1; subst h2
              exact hobIns
            obtain ⟨Δ', hlog', hD', hI', hstep', hcompit', hit', hndi', hcf', hcompl'⟩ :=
              ih (setKey conts s v) _ (tr ++ [CallEvt.impl s
                  (inputsFor undef conts (depsOf w.dependencies s))
                  (impl (implCallCount log s)
                    (inputsFor undef conts (depsOf w.dependencies s)))])
                items₁ errs₁ conts₁ logr hrec hnd'
                (by
                  intro s' hs' e he
                  rcases List.mem_append.mp he with hin | hone
                  · exact hfresh s' (List.mem_cons_of_mem _ hs') e hin
                  · simp only [List.mem_singleton] at hone
                    subst hone
                    simp only [evtStep]
                    intro hc
                    subst hc
                    exact hs_nr hs')
                (fun s' hs' d hd =>
                  (hctxd s' (List.mem_cons_of_mem _ hs') d hd).elim
                    (fun v' hv' => ⟨v', hv'.1.mono
                      (fun e he => List.mem_append_left _ he), hv'.2⟩))
                (by
                  intro _ d v' hc
                  obtain ⟨e, he, hes, heo⟩ := hc
                  rcases List.mem_append.mp he with hin | hone
                  · have hne : d ≠ s := fun hds => by
                      subst hds
                      exact hfresh d (List.mem_cons_self _ _) e hin hes
                    rw [getKey_setKey_ne _ _ _ _ hne]
                    exact hcontsf rfl d v' ⟨e, hin, hes, heo⟩
                  · simp only [List.mem_singleton] at hone
                    subst hone
                    simp only [evtStep] at hes
                    simp only [evtOutcome] at heo
                    rw [ho] at heo
                    injection heo with hv
                    subst hes; subst hv
                    rw [getKey_setKey_self])
                hDeps' hIns'
            refine ⟨CallEvt.impl s (inputsFor undef conts (depsOf w.dependencies s))
                (impl (implCallCount log s)
                  (inputsFor undef conts (depsOf w.dependencies s))) :: Δ',
                ?_, ?_, ?_, ?_, ?_, ?_, ?_, ?_, ?_⟩
            · rw [hlog']; simp
            · rw [List.append_cons]; exact hD'
            · rw [List.append_cons]; exact hI'
            · intro e he
              rcases List.mem_cons.mp he with rfl | heΔ
              · simp only [evtStep]; exact List.mem_cons_self s rest
              · exact List.mem_cons_of_mem _ (hstep' e heΔ)
            · intro d v' hc
              obtain ⟨e, he, hes, heo⟩ := hc
              rcases List.mem_cons.mp he with rfl | heΔ
              · simp only [evtStep] at hes
                simp only [evtOutcome] at heo
                rw [ho] at heo
                injection heo with hv
                subst hes; subst hv
                exact List.mem_cons_self _ _
              · exact List.mem_cons_of_mem _ (hcompit' d v' ⟨e, heΔ, hes, heo⟩)
            · intro it hit''
              rcases List.mem_cons.mp hit'' with rfl | hit₁
              · exact ⟨List.mem_cons_self s rest,
                  ⟨CallEvt.impl s (inputsFor undef conts (depsOf w.dependencies s))
                    (impl (implCallCount log s)
                      (inputsFor undef conts (depsOf w.dependencies s))),
                    List.mem_cons_self _ _, rfl, ho⟩⟩
              · exact ⟨List.mem_cons_of_mem _ (hit' it hit₁).1,
                  (hit' it hit₁).2.mono (fun e he => List.mem_cons_of_mem _ he)⟩
            · rw [List.map_cons]
              refine List.nodup_cons.mpr ⟨?_, hndi'⟩
              intro hmem
              obtain ⟨it, hit₁, hfst⟩ := List.mem_map.mp hmem
              have hfst' : it.1 = s := hfst
              exact hs_nr (hfst' ▸ (hit' it hit₁).1)
            · intro hb d v' hc
              rw [List.append_cons] at hc
              exact hcf' hb d v' hc
            · intro herrs s' hs' hsome
              rcases List.mem_cons.mp hs' with rfl | hs''
              · exact ⟨v, List.mem_cons_self _ _⟩
              · obtain ⟨v', hv'⟩ := hcompl' herrs s' hs'' hsome
                exact ⟨v', List.mem_cons_of_mem _ hv'⟩

/-- Context propagation through the level loop of `executeAsync`: provided
every remaining step's dependencies are either scheduled in an earlier
remaining level or already completed, the run's trace keeps every action
context and implementation input mapping faithful for declared
dependencies. -/
theorem runLevels_ctx_faithful {V : Type} (undef : V) (w : WorkflowInstance V)
    (flow : FlowDefinition V) (isBuild : Bool)
    (hbase : isBuild = true →
      ∀ n, depsOf w.dependencies n = depsOf flow.dependencies n)
    (hacts : ∀ n d, d ∈ depsOf flow.dependencies n →
      (getKey flow.steps d).isSome = true) :
    ∀ (lvls : List (List String)) (ctx res conts : List (String × V))
      (log tr : List (CallEvt V)) out conts' log',
      runLevels undef w flow isBuild lvls ctx res conts log = (out, conts', log') →
      lvls.flatten.Nodup →
      (∀ d v, Completed tr d v → getKey ctx d = some v) →
      (isBuild = true → ∀ d v, Completed tr d v → getKey conts d = some v) →
      ActionCtxDeps flow.dependencies tr →
      ImplInputsDeps flow.dependencies tr →
      (∀ (r₁ : List (List String)) lvl r₂, lvls = r₁ ++ lvl :: r₂ →
        ∀ s ∈ lvl, ∀ d ∈ depsOf flow.dependencies s,
          d ∈ r₁.flatten ∨ ∃ v, Completed tr d v) →
      (∀ s ∈ lvls.flatten, ∀ e ∈ tr, evtStep e ≠ s) →
      ∃ Δ, log' = log ++ Δ ∧ ActionCtxDeps flow.dependencies (tr ++ Δ) ∧
        ImplInputsDeps flow.dependencies (tr ++ Δ) := by
  intro lvls
  induction lvls with
  | nil =>
    intro ctx res conts log tr out conts' log' h _ _ _ hDeps hIns _ _
    simp only [runLevels, Prod.mk.injEq] at h
    obtain ⟨-, -, hlog⟩ := h
    subst hlog
    exact ⟨[], by simp, by simpa, by simpa⟩
  | cons lvl rest ih =>
    intro ctx res conts log tr out conts' log' h hnd hK1 hK2 hDeps hIns hJ4 hK5
    rw [List.flatten_cons] at hnd
    obtain ⟨hndlvl, hndrest, hdisj⟩ := List.nodup_append.mp hnd
    simp only [runLevels] at h
    have hfresh_lvl : ∀ s ∈ lvl, ∀ e ∈ tr, evtStep e ≠ s := fun s hs =>
      hK5 s (by rw [List.flatten_cons]; exact List.mem_append_left _ hs)
    have hctxd : ∀ s ∈ lvl, ∀ d ∈ depsOf flow.dependencies s,
        ∃ v, Completed tr d v ∧ getKey ctx d = some v := by
      intro s hs d hd
      rcases hJ4 [] lvl rest rfl s hs d hd with hflat | ⟨v, hv⟩
      · simp at hflat
      · exact ⟨v, hv, hK1 d v hv⟩
    rcases hrl : runLevel undef w flow isBuild ctx lvl conts log with
      ⟨items, errs, conts₁, log₁⟩
    cases errs with
    | cons e₀ es =>
      simp only [hrl] at h
      simp only [Prod.mk.injEq] at h
      obtain ⟨-, -, hlog⟩ := h
      obtain ⟨Δ, hlogΔ, hD₁, hI₁, -, -, -, -, -, -⟩ :=
        runLevel_ctx_faithful undef w flow isBuild ctx hbase lvl conts log tr
          items (e₀ :: es) conts₁ log₁ hrl hndlvl hfresh_lvl hctxd hK2 hDeps hIns
      exact ⟨Δ, by rw [← hlog, hlogΔ], hD₁, hI₁⟩
    | nil =>
      simp only [hrl] at h
      obtain ⟨Δ, hlogΔ, hD₁, hI₁, hstepΔ, hcompit, hitems, hndi, hcf, hcompl⟩ :=
        runLevel_ctx_faithful undef w flow isBuild ctx hbase lvl conts log tr
          items [] conts₁ log₁ hrl hndlvl hfresh_lvl hctxd hK2 hDeps hIns
      have hK1' : ∀ d v, Completed (tr ++ Δ) d v →
          getKey (items.foldl (fun m it => setKey m it.1 it.2) ctx) d = some v := by
        intro d v hc
        obtain ⟨e, he, hes, heo⟩ := hc
        rcases List.mem_append.mp he with hin | hinΔ
        · have hdni : d ∉ items.map Prod.fst := by
            intro hmem
            obtain ⟨it, hitm, hf⟩ := List.mem_map.mp hmem
            have hdl : d ∈ lvl := hf ▸ (hitems it hitm).1
            exact hfresh_lvl d hdl e hin hes
          rw [foldl_setKey_not_mem items ctx d hdni]
          exact hK1 d v ⟨e, hin, hes, heo⟩
        · exact foldl_setKey_mem items ctx d v hndi (hcompit d v ⟨e, hinΔ, hes, heo⟩)
      have hJ4' : ∀ (r₁ : List (List String)) lvl' r₂, rest = r₁ ++ lvl' :: r₂ →
          ∀ s ∈ lvl', ∀ d ∈ depsOf flow.dependencies s,
            d ∈ r₁.flatten ∨ ∃ v, Completed (tr ++ Δ) d v := by
        intro r₁ lvl' r₂ hr s hs d hd
        rcases hJ4 (lvl :: r₁) lvl' r₂ (by rw [hr]; rfl) s hs d hd with
          hflat | ⟨v, hv⟩
        · rw [List.flatten_cons] at hflat
          rcases List.mem_append.mp hflat with hdl | hdr
          · obtain ⟨v, hvitems⟩ := hcompl rfl d hdl (hacts s d hd)
            exact Or.inr ⟨v, ((hitems (d, v) hvitems).2).mono
              (fun e he => List.mem_append_right _ he)⟩
          · exact Or.inl hdr
        · exact Or.inr ⟨v, hv.mono (fun e he => List.mem_append_left _ he)⟩
      have hK5' : ∀ s ∈ rest.flatten, ∀ e ∈ tr ++ Δ, evtStep e ≠ s := by
        intro s hs e he
        rcases List.mem_append.mp he with hin | hinΔ
        · refine hK5 s ?_ e hin
          rw [List.flatten_cons]
          exact List.mem_append_right _ hs
        · intro hc
          exact hdisj (hc ▸ hstepΔ e hinΔ) hs
      obtain ⟨Δ₂, hlog₂, hD₂, hI₂⟩ :=
        ih (items.foldl (fun m it => setKey m it.1 it.2) ctx)
          (items.foldl (fun m it => setKey m it.1 it.2) res)
          conts₁ log₁ (tr ++ Δ) out conts' log' h hndrest hK1' hcf hD₁ hI₁
          hJ4' hK5'
      refine ⟨Δ ++ Δ₂, ?_, ?_, ?_⟩
      · rw [hlog₂, hlogΔ, List.append_assoc]
      · rw [← List.append_assoc]; exact hD₂
      · rw [← List.append_assoc]; exact hI₂

theorem completed_nil {V : Type} {d : String} {v : V} :
    ¬ Completed ([] : List (CallEvt V)) d v := by
  rintro ⟨e, he, -, -⟩
  simp at he

theorem actionCtxFull_nil {V : Type} : ActionCtxFull ([] : List (CallEvt V)) := by
  intro t₁ s cv c o t₂ hdec
  cases t₁ with
  | nil => exact List.noConfusion hdec
  | cons a t => exact List.noConfusion hdec

theorem actionCtxDeps_nil {V : Type} (g : Graph) :
    ActionCtxDeps g ([] : List (CallEvt V)) := by
  intro t₁ s cv c o t₂ hdec
  cases t₁ with
  | nil => exact List.noConfusion hdec
  | cons a t => exact List.noConfusion hdec

theorem implInputsDeps_nil {V : Type} (g : Graph) :
    ImplInputsDeps g ([] : List (CallEvt V)) := by
  intro t₁ s ins o t₂ hdec
  cases t₁ with
  | nil => exact List.noConfusion hdec
  | cons a t => exact List.noConfusion hdec

/-- **C6**: context propagation.  For every flow run over a workflow whose
flow declares its dependencies among its own steps (which `validateFlows`
guarantees for built workflows) and, for the build flow, whose instance
dependency graph agrees with the flow's: in blocking mode every action
invocation of the run's trace receives a context containing the flow result
of *every* step completed earlier in the run, and in both blocking and
async mode every action invocation's context — and every implementation
invocation's input mapping — contains the results its declared flow-local
dependencies produced in this run (the claim's contract core; in async mode
same-level siblings are dispatched against the same context snapshot before
any of them settles, so only steps of earlier levels, which include all
declared dependencies, are guaranteed present). -/
theorem context_propagation {V : Type} (undef : V) (w : WorkflowInstance V)
    (flowName : String) (flow : FlowDefinition V)
    (hf : getKey w.flows flowName = some flow)
    (hbase : (flowName == w.buildFlowName) = true →
      ∀ n, depsOf w.dependencies n = depsOf flow.dependencies n)
    (hacts : ∀ n d, d ∈ depsOf flow.dependencies n →
      (getKey flow.steps d).isSome = true) :
    (∀ out w' tr, execute undef w flowName = (out, w', tr) →
      ActionCtxFull tr ∧ ActionCtxDeps flow.dependencies tr ∧
        ImplInputsDeps flow.dependencies tr) ∧
    (∀ out w' tr, executeAsync undef w flowName = (out, w', tr) →
      ActionCtxDeps flow.dependencies tr ∧
        ImplInputsDeps flow.dependencies tr) := by
  constructor
  · intro out w' tr h
    simp only [execute, hf] at h
    cases hts : topologicalSort flow.dependencies with
    | error e =>
      simp only [hts, Prod.mk.injEq] at h
      obtain ⟨-, -, htr⟩ := h
      subst htr
      exact ⟨actionCtxFull_nil, actionCtxDeps_nil _, implInputsDeps_nil _⟩
    | ok order =>
      simp only [hts] at h
      rcases hE : executeLoop undef w flow (flowName == w.buildFlowName) order
          [] [] w.containers w.log with ⟨out₁, conts₁, log₁⟩
      obtain ⟨Δ, hlogΔ, hFull, hDeps, hIns⟩ :=
        executeLoop_ctx_faithful undef w flow (flowName == w.buildFlowName)
          hbase hacts order [] [] w.containers w.log [] out₁ conts₁ log₁ hE
          (topologicalSort_sound hts).1
          (fun d v hc => absurd hc completed_nil)
          (fun _ d v hc => absurd hc completed_nil)
          actionCtxFull_nil (actionCtxDeps_nil _) (implInputsDeps_nil _)
          (fun r₁ s r₂ hr d hd =>
            Or.inl (depsBefore_split (topologicalSort_sound hts).2.1 r₁ s r₂
              hr d hd))
          (fun s _ e he => absurd he (by simp))
      rw [List.nil_append] at hFull hDeps hIns
      have htrΔ : log₁.drop w.log.length = Δ := by
        rw [hlogΔ, List.drop_left]
      cases out₁ with
      | error e =>
        simp only [hE, Prod.mk.injEq] at h
        obtain ⟨-, -, htr⟩ := h
        rw [← htr, htrΔ]
        exact ⟨hFull, hDeps, hIns⟩
      | ok p =>
        obtain ⟨c₁, r₁⟩ := p
        simp only [hE, Prod.mk.injEq] at h
        obtain ⟨-, -, htr⟩ := h
        rw [← htr, htrΔ]
        exact ⟨hFull, hDeps, hIns⟩
  · intro out w' tr h
    simp only [executeAsync, hf] at h
    cases hts : topologicalSort flow.dependencies with
    | error e =>
      simp only [hts, Prod.mk.injEq] at h
      obtain ⟨-, -, htr⟩ := h
      subst htr
      exact ⟨actionCtxDeps_nil _, implInputsDeps_nil _⟩
    | ok order =>
      simp only [hts] at h
      cases hgs : groupStepsByLevel flow order with
      | none =>
        simp only [hgs, Prod.mk.injEq] at h
        obtain ⟨-, -, htr⟩ := h
        subst htr
        exact ⟨actionCtxDeps_nil _, implInputsDeps_nil _⟩
      | some levels =>
        simp only [hgs] at h
        have hgl : groupLoop flow.dependencies (fuelOf flow.dependencies)
            order [] = some levels := hgs
        have hJ4 : ∀ (r₁ : List (List String)) lvl r₂,
            levels = r₁ ++ lvl :: r₂ →
            ∀ s ∈ lvl, ∀ d ∈ depsOf flow.dependencies s,
              d ∈ r₁.flatten ∨ ∃ v, Completed ([] : List (CallEvt V)) d v := by
          intro r₁ lvl r₂ hr s hs d hd
          left
          have hlvl_at : levels[r₁.length]? = some lvl := by
            rw [hr, List.getElem?_append_right (Nat.le_refl _)]
            simp
          have hs_lev : getStepLevel flow.dependencies
              (fuelOf flow.dependencies) s = some r₁.length :=
            groupLoop_levels flow.dependencies (fuelOf flow.dependencies)
              order [] levels hgl (by intro k grp t hk; simp at hk)
              r₁.length lvl s hlvl_at hs
          obtain ⟨ld, hld, hldlt⟩ := edge_level_lt flow.dependencies
            (fuelOf flow.dependencies) hs_lev hd
          have hs_order : s ∈ order := by
            have hcnt := groupLoop_flatten_count flow.dependencies
              (fuelOf flow.dependencies) order [] levels hgl s
            simp only [List.flatten_nil, List.count_nil, Nat.zero_add] at hcnt
            have hsflat : s ∈ levels.flatten :=
              List.mem_flatten.mpr ⟨lvl, by
                rw [hr]
                exact List.mem_append_right _ (List.mem_cons_self _ _), hs⟩
            have hpos := List.count_pos_iff.mpr hsflat
            rw [hcnt] at hpos
            exact List.count_pos_iff.mp hpos
          obtain ⟨i, hi⟩ := List.getElem?_of_mem hs_order
          obtain ⟨j, hji, hj⟩ := (topologicalSort_sound hts).2.1 i s hi d hd
          have hd_order : d ∈ order := by
            obtain ⟨hlt, heq⟩ := List.getElem?_eq_some_iff.mp hj
            exact heq ▸ List.getElem_mem hlt
          obtain ⟨l', grp, hl', hlv', hdg⟩ := groupLoop_complete
            flow.dependencies (fuelOf flow.dependencies) order [] levels hgl
            d hd_order
          rw [hld] at hl'
          injection hl' with hll
          subst hll
          rw [hr, List.getElem?_append_left hldlt] at hlv'
          obtain ⟨hlt₂, heq₂⟩ := List.getElem?_eq_some_iff.mp hlv'
          exact List.mem_flatten.mpr ⟨grp, heq₂ ▸ List.getElem_mem hlt₂, hdg⟩
        rcases hR : runLevels undef w flow (flowName == w.buildFlowName) levels
            [] [] w.containers w.log with ⟨out₁, conts₁, log₁⟩
        obtain ⟨Δ, hlogΔ, hDeps, hIns⟩ :=
          runLevels_ctx_faithful undef w flow (flowName == w.buildFlowName)
            hbase hacts levels [] [] w.containers w.log [] out₁ conts₁ log₁ hR
            (groupLoop_flatten_nodup hgl (topologicalSort_sound hts).1)
            (fun d v hc => absurd hc completed_nil)
            (fun _ d v hc => absurd hc completed_nil)
            (actionCtxDeps_nil _) (implInputsDeps_nil _)
            hJ4
            (fun s _ e he => absurd he (by simp))
        rw [List.nil_append] at hDeps hIns
        have htrΔ : log₁.drop w.log.length = Δ := by
          rw [hlogΔ, List.drop_left]
        cases out₁ with
        | error e =>
          simp only [hR, Prod.mk.injEq] at h
          obtain ⟨-, -, htr⟩ := h
          rw [← htr, htrΔ]
          exact ⟨hDeps, hIns⟩
        | ok p =>
          obtain ⟨c₁, r₁⟩ := p
          simp only [hR, Prod.mk.injEq] at h
          obtain ⟨-, -, htr⟩ := h
          rw [← htr, htrΔ]
          exact ⟨hDeps, hIns⟩

/-- Witness flow: `b` depends on `a`; `b`'s action reads `a`'s result from
its context argument. -/
def cpFlow : FlowDefinition Nat :=
  ⟨[("a", ⟨fun _ _ => .ok (.val 3)⟩),
    ("b", ⟨fun _ ctx => .ok (.val ((getKey ctx "a").getD 0 + 1))⟩)],
   [("a", []), ("b", ["a"])]⟩

def wCp : WorkflowInstance Nat :=
  { steps := [], dependencies := [], flows := [("f", cpFlow)],
    buildFlowName := "__build__", containers := [], log := [] }

theorem context_propagation_witness :
    ActionCtxFull (execute (0 : Nat) wCp "f").2.2 ∧
    ActionCtxDeps cpFlow.dependencies (execute (0 : Nat) wCp "f").2.2 ∧
    ImplInputsDeps cpFlow.dependencies (execute (0 : Nat) wCp "f").2.2 ∧
    ActionCtxDeps cpFlow.dependencies (executeAsync (0 : Nat) wCp "f").2.2 ∧
    ImplInputsDeps cpFlow.dependencies (executeAsync (0 : Nat) wCp "f").2.2 := by
  have hacts : ∀ n d, d ∈ depsOf cpFlow.dependencies n →
      (getKey cpFlow.steps d).isSome = true := by
    intro n d hd
    simp only [cpFlow, depsOf, getKey] at hd
    by_cases h1 : "a" = n
    · rw [if_pos h1] at hd
      simp at hd
    · rw [if_neg h1] at hd
      by_cases h2 : "b" = n
      · rw [if_pos h2] at hd
        simp only [Option.getD_some, List.mem_singleton] at hd
        subst hd
        rfl
      · rw [if_neg h2] at hd
        simp at hd
  have h := context_propagation 0 wCp "f" cpFlow rfl
    (fun hb => absurd hb (by decide)) hacts
  obtain ⟨hFull, hDeps, hIns⟩ := h.1 _ _ _ rfl
  obtain ⟨hDeps', hIns'⟩ := h.2 _ _ _ rfl
  exact ⟨hFull, hDeps, hIns, hDeps', hIns'⟩
